import Mathlib

/-!
# Aquamarine generator: identifier normalisation, type mapping and file emission

A shallow embedding of `internal/aquamarine/generator.go`, `generate.go` and
`app.go`.

Go strings are byte sequences, so a string is a list of byte values.
The regular expressions of `toSnakeCase` only test ASCII classes, and the
inserted separator always lands right before an ASCII capital, so scanning
byte by byte yields the same output as Go's rune by rune scan.
-/

set_option autoImplicit false

namespace Aquamarine

/-! ## Strings -/

/-- A Go string: its bytes, in order. -/
abbrev GoString := List Nat

/-- The bytes of an ASCII string literal of the source. -/
def str (s : String) : GoString := s.toList.map Char.toNat

/-- The class `[A-Z]`. -/
def isUpper (b : Nat) : Bool := decide (65 ≤ b) && decide (b ≤ 90)

/-- The class `[a-z]`. -/
def isLower (b : Nat) : Bool := decide (97 ≤ b) && decide (b ≤ 122)

/-- The class `[0-9]`. -/
def isDigit (b : Nat) : Bool := decide (48 ≤ b) && decide (b ≤ 57)

/-- An ASCII letter or digit. -/
def isAlnum (b : Nat) : Bool := isUpper b || isLower b || isDigit b

/-- The separator byte `_`. -/
def underscore : Nat := 95

/-- The line feed byte, the only character `.` refuses. -/
def newline : Nat := 10

/-- Lower-casing of one byte as done by the ASCII path of `strings.ToLower`. -/
def toLowerByte (b : Nat) : Nat := if isUpper b then b + 32 else b

/-- Upper-casing of one byte as done by the ASCII path of `strings.ToUpper`. -/
def toUpperByte (b : Nat) : Nat := if isLower b then b - 32 else b

/-- The function `strings.ToLower` on an ASCII string. For a string holding a
byte of 0x80 or more Go goes through the Unicode tables instead; that branch
is outside this embedding, and statements about it assume ASCII input. -/
def stringsToLower (s : GoString) : GoString := s.map toLowerByte

/-- The function `strings.ToUpper` applied to the one-byte string `str[:1]`.
An ASCII byte takes the ASCII path. A lone byte of 0x80 or more is not valid
UTF-8: `strings.Map` decodes it as `utf8.RuneError` and writes that rune
back, the three bytes EF BF BD. -/
def stringsToUpperByte (b : Nat) : GoString :=
  if b < 128 then [toUpperByte b] else [0xEF, 0xBF, 0xBD]

/-! ## Regular expression replacement -/

/-- The result of matching a two-group pattern at the head of the input:
the text of group 1, the text of group 2 and the input left after the match. -/
abbrev MatchAt := GoString → Option (GoString × GoString × GoString)

/-- The pattern `(.)([A-Z][a-z]+)` anchored at the head of the input. The
`+` is greedy and nothing follows it, so it takes the whole lowercase run.
Group 1 is given as one byte: for a character of several bytes it is the
last of them, the bytes before it are copied by the scan as unmatched text,
and the separator lands at the same place. -/
def matchFirstCap : MatchAt
  | c :: u :: l :: rest =>
    if c ≠ newline ∧ isUpper u = true ∧ isLower l = true then
      some ([c], u :: l :: rest.takeWhile isLower, rest.dropWhile isLower)
    else none
  | _ => none

/-- The pattern `([a-z0-9])([A-Z])` anchored at the head of the input. -/
def matchAllCap : MatchAt
  | x :: y :: rest =>
    if (isLower x || isDigit x) = true ∧ isUpper y = true then
      some ([x], [y], rest)
    else none
  | _ => none

/-- The scan of `Regexp.ReplaceAllString` with the template `${1}_${2}`:
the leftmost match is replaced and the scan resumes after it; where nothing
matches, one byte is copied. The first argument bounds the number of steps. -/
def replaceAll (re : MatchAt) : Nat → GoString → GoString
  | 0, s => s
  | _ + 1, [] => []
  | n + 1, c :: rest =>
    match re (c :: rest) with
    | some (g1, g2, tail) => g1 ++ underscore :: g2 ++ replaceAll re n tail
    | none => c :: replaceAll re n rest

/-- The call `re.ReplaceAllString(src, "${1}_${2}")`. -/
def ReplaceAllString (re : MatchAt) (src : GoString) : GoString :=
  replaceAll re src.length src

/-- The function `toSnakeCase` of generator.go. -/
def toSnakeCase (s : GoString) : GoString :=
  let snake := ReplaceAllString matchFirstCap s
  let snake := ReplaceAllString matchAllCap snake
  stringsToLower snake

/-- The function `capitalizeFirst` of generator.go: `str[:1]` is the first
byte, not the first character. -/
def capitalizeFirst : GoString → GoString
  | [] => []
  | b :: rest => stringsToUpperByte b ++ rest

/-- The function `mapGoType` of generator.go. -/
def mapGoType (yamlType : GoString) : GoString :=
  if yamlType = str "text" ∨ yamlType = str "string" ∨ yamlType = str "email" then
    str "string"
  else if yamlType = str "bool" then str "bool"
  else if yamlType = str "uuid" then str "uuid.UUID"
  else if yamlType = str "int" then str "int"
  else if yamlType = str "int64" then str "int64"
  else if yamlType = str "float64" then str "float64"
  else str "any"

/-! ## Paths (package path/filepath, Unix) -/

/-- The path separator `/`. -/
def slash : Nat := 47

/-- The elements of a path: the text between separators, empty ones kept. -/
def splitSlash : GoString → List GoString
  | [] => [[]]
  | c :: rest =>
    if c = slash then [] :: splitSlash rest
    else
      match splitSlash rest with
      | [] => [[c]]
      | h :: t => (c :: h) :: t

/-- One element processed by `filepath.Clean`. The elements kept so far are
held last first. Empty and `.` elements are dropped; `..` removes the last
kept element when that is a real name, is kept at the front of an unrooted
path, and is dropped at the root of a rooted one. -/
def cleanStep (rooted : Bool) (kept : List GoString) (e : GoString) : List GoString :=
  if e = [] ∨ e = str "." then kept
  else if e = str ".." then
    match kept with
    | [] => if rooted then [] else [str ".."]
    | top :: below => if top = str ".." then str ".." :: top :: below else below
  else e :: kept

/-- The elements `filepath.Clean` keeps, in path order. -/
def cleanElems (rooted : Bool) (path : GoString) : List GoString :=
  ((splitSlash path).foldl (cleanStep rooted) []).reverse

/-- The elements of a path joined with the separator. -/
def joinSlash (elems : List GoString) : GoString := [slash].intercalate elems

/-- The function `filepath.Clean`. -/
def Clean (path : GoString) : GoString :=
  match path with
  | [] => str "."
  | c :: _ =>
    if c = slash then slash :: joinSlash (cleanElems true path)
    else
      match cleanElems false path with
      | [] => str "."
      | es => joinSlash es

/-- The function `filepath.Join`: leading empty elements are skipped, the
rest is joined with the separator and cleaned; with no non-empty element the
result is the empty string. -/
def Join (elem : List GoString) : GoString :=
  match elem.dropWhile (fun e => e.isEmpty) with
  | [] => []
  | es => Clean (joinSlash es)

/-- The function `filepath.Dir`: the path up to its last separator, cleaned. -/
def Dir (path : GoString) : GoString :=
  Clean (path.reverse.dropWhile (fun b => decide (b ≠ slash))).reverse

/-- Whether `p` is the directory `root` or lies below it. -/
def isUnder (root p : GoString) : Prop := p = root ∨ (root ++ [slash]) <+: p

instance (root p : GoString) : Decidable (isUnder root p) := by
  unfold isUnder; exact inferInstance

/-! ## Formatting (package fmt) -/

/-- The verb `%d` applied to an `int`. -/
def fmtInt (n : Int) : GoString := str (toString n)

/-- The verb `%v` applied to a `[]string`: the elements separated by one
space, between square brackets. -/
def fmtStrings (xs : List GoString) : GoString :=
  str "[" ++ (str " ").intercalate xs ++ str "]"

/-! ## The file system -/

/-- An error value, identified with its message. -/
abbrev Err := GoString

/-- The file-system calls made by the generator. Permission arguments are
constants of the source and are left out. `create` is `os.Create`, and
`write` is the output a template execution sends to the file it was given. -/
inductive FsOp where
  | mkdirAll (path : GoString)
  | writeFile (path data : GoString)
  | create (path : GoString)
  | write (path data : GoString)
  deriving DecidableEq, Repr

/-- The path a file-system call acts on. -/
def FsOp.path : FsOp → GoString
  | .mkdirAll p => p
  | .writeFile p _ => p
  | .create p => p
  | .write p _ => p

/-- The operating system as the generator sees it: any state type, any
outcome for each call (the new state, and the error if the call failed),
and any outcome for reading a file. -/
structure World (σ : Type) where
  step : σ → FsOp → σ × Option Err
  readFile : σ → GoString → Except Err GoString

/-- One logged call: the call, the error it returned, and whether the caller
assigned that error to the blank identifier (`_ = os.WriteFile(...)`). -/
structure LogEntry where
  op : FsOp
  err : Option Err
  discarded : Bool
  deriving DecidableEq, Repr

/-- The system during a run: the file-system state and the calls made so
far, oldest first. -/
structure Sys (σ : Type) where
  fs : σ
  log : List LogEntry

/-- One file-system call whose error the caller looks at: the state
advances, the call is logged, and the error goes to the caller. -/
def perform {σ : Type} (W : World σ) (op : FsOp) (r : Sys σ) : Sys σ × Option Err :=
  let res := W.step r.fs op
  ({ fs := res.1, log := r.log ++ [{ op := op, err := res.2, discarded := false }] }, res.2)

/-- One file-system call whose error is assigned to the blank identifier. -/
def performBlank {σ : Type} (W : World σ) (op : FsOp) (r : Sys σ) : Sys σ :=
  let res := W.step r.fs op
  { fs := res.1, log := r.log ++ [{ op := op, err := res.2, discarded := true }] }

/-- The idiom `if err := f(); err != nil { return err }` followed by the
rest of the function. -/
def andThen {σ : Type} (x : Sys σ × Option Err) (k : Sys σ → Sys σ × Option Err) :
    Sys σ × Option Err :=
  match x.2 with
  | some e => (x.1, some e)
  | none => k x.1

/-! ## The specification read by `Generate` (generate.go) -/

/-- The `project` section of the specification. -/
structure SpecProject where
  Name : GoString
  Module : GoString
  deriving DecidableEq, Repr

/-- The `service` section of a feature. -/
structure SpecService where
  Methods : List GoString
  deriving DecidableEq, Repr

/-- The type `Feat`; the fields `Generate` never reads (`Model`, `Models`,
`API`, `Pages`) are left out. -/
structure Feat where
  Name : GoString
  Kind : GoString
  Service : SpecService
  deriving DecidableEq, Repr

/-- The type `Spec`; of `Runtime` only `HTTP.Web.Port`, the one field
`Generate` reads, is kept. -/
structure Spec where
  Version : GoString
  Project : SpecProject
  WebPort : Int
  Feats : List Feat
  deriving DecidableEq, Repr

/-- The error of `readSpec` for a specification without a module. -/
def errModuleRequired : Err := str "project.module is required"

/-- The function `readSpec` of generate.go. The YAML decoder is a parameter. -/
def readSpec {σ : Type} (W : World σ) (unmarshal : GoString → Except Err Spec)
    (path : GoString) (fs : σ) : Except Err Spec :=
  match W.readFile fs path with
  | .error e => .error e
  | .ok b =>
    match unmarshal b with
    | .error e => .error e
    | .ok s => if s.Project.Module = [] then .error errModuleRequired else .ok s

/-- The function `safeWriteFile` of generate.go. -/
def safeWriteFile {σ : Type} (W : World σ) (path data : GoString) (r : Sys σ) :
    Sys σ × Option Err :=
  andThen (perform W (.mkdirAll (Dir path)) r) fun r =>
  perform W (.writeFile path data) r

/-- The text `writeGoMod` formats. -/
def goModContent (module : GoString) : GoString :=
  str "module " ++ module ++
  str "\n\ngo 1.22\n\nrequire github.com/aquamarinepk/aquamarine v0.0.0\n\nreplace github.com/aquamarinepk/aquamarine => " ++
  str "../.." ++ str "\n"

/-- The function `writeGoMod` of generate.go. -/
def writeGoMod {σ : Type} (W : World σ) (outRoot module : GoString) (r : Sys σ) :
    Sys σ × Option Err :=
  safeWriteFile W (Join [outRoot, str "go.mod"]) (goModContent module) r

/-- The text of the entry-point template of `writeAppMain` up to its `%d` verb. -/
def appMainHead : GoString :=
  str ("package main\n" ++
    "\n" ++
    "import (\n" ++
    "  \"context\"\n" ++
    "  \"embed\"\n" ++
    "  \"log\"\n" ++
    "  \"net/http\"\n" ++
    "  \"os/signal\"\n" ++
    "  \"syscall\"\n" ++
    "\n" ++
    "  \"github.com/go-chi/chi/v5\"\n" ++
    "  \"github.com/aquamarinepk/aquamarine/pkg/lib/am\"\n" ++
    ")\n" ++
    "\n" ++
    "//go:embed assets\n" ++
    "var assetsFS embed.FS\n" ++
    "\n" ++
    "func main() \x7b\n" ++
    "  apiPort := \":8081\"\n" ++
    "  webPort := \":")

/-- The text of the entry-point template of `writeAppMain` after its `%d` verb. -/
def appMainTail : GoString :=
  str ("\"\n" ++
    "\n" ++
    "  logger := am.NewLogger(\"info\")\n" ++
    "\n" ++
    "  ctx, cancel := signal.NotifyContext(context.Background(), syscall.SIGINT, syscall.SIGTERM)\n" ++
    "  defer cancel()\n" ++
    "\n" ++
    "  apiRouter := chi.NewRouter()\n" ++
    "  webRouter := chi.NewRouter()\n" ++
    "  \n" ++
    "  apiRouter.Get(\"/healthz\", func(w http.ResponseWriter, r *http.Request) \x7b\n" ++
    "    w.WriteHeader(http.StatusOK)\n" ++
    "    _, _ = w.Write([]byte(\"api ok\"))\n" ++
    "  \x7d)\n" ++
    "  \n" ++
    "  webRouter.Get(\"/healthz\", func(w http.ResponseWriter, r *http.Request) \x7b\n" ++
    "    w.WriteHeader(http.StatusOK)\n" ++
    "    _, _ = w.Write([]byte(\"web ok\"))\n" ++
    "  \x7d)\n" ++
    "\n" ++
    "  var deps []any\n" ++
    "\n" ++
    "  starts, stops := am.Setup(ctx, apiRouter, webRouter, deps...)\n" ++
    "\n" ++
    "  if err := am.Start(ctx, starts, stops); err != nil \x7b\n" ++
    "    log.Fatal(err)\n" ++
    "  \x7d\n" ++
    "\n" ++
    "  servers := []am.Server\x7b\n" ++
    "    \x7bName: \"API\", Addr: apiPort, Handler: apiRouter\x7d,\n" ++
    "    \x7bName: \"Web\", Addr: webPort, Handler: webRouter\x7d,\n" ++
    "  \x7d\n" ++
    "\n" ++
    "  am.StartServers(servers, logger)\n" ++
    "\n" ++
    "  <-ctx.Done()\n" ++
    "  \n" ++
    "  am.GracefulShutdown(servers, stops, logger)\n" ++
    "\x7d\n")

/-- The text `writeAppMain` formats. -/
def appMainContent (cfg : Spec) : GoString :=
  appMainHead ++ fmtInt cfg.WebPort ++ appMainTail

/-- The function `writeAppMain` of generate.go. -/
def writeAppMain {σ : Type} (W : World σ) (outRoot : GoString) (cfg : Spec) (r : Sys σ) :
    Sys σ × Option Err :=
  safeWriteFile W (Join [outRoot, str "main.go"]) (appMainContent cfg) r

/-- The base directories `Generate` creates under the output root. -/
def baseDirs : List GoString :=
  [str "internal/platform", str "internal/web", str "internal/feat",
   str "assets/templates", str "assets/migrations/sqlite",
   str "assets/seeds/sqlite", str "assets/queries/sqlite"]

/-- The loop of `Generate` over the base directories. -/
def baseDirsLoop {σ : Type} (W : World σ) (outRoot : GoString) :
    List GoString → Sys σ → Sys σ × Option Err
  | [], r => (r, none)
  | d :: ds, r =>
    andThen (perform W (.mkdirAll (Join [outRoot, d])) r) fun r =>
    baseDirsLoop W outRoot ds r

/-- The text of a feature's README.md. -/
def featReadme (f : Feat) : GoString :=
  str "# " ++ f.Name ++ str "\n\nGenerated feat skeleton."

/-- The text of a feature's service.go. -/
def featService (f : Feat) : GoString :=
  str "package " ++ f.Name ++ str "\n\n// Service methods (scaffold): " ++
  fmtStrings f.Service.Methods ++ str "\n"

/-- The directory of a feature. -/
def featDir (outRoot : GoString) (f : Feat) : GoString :=
  Join [outRoot, str "internal/feat", f.Name]

/-- The body of the loop of `Generate` over the features. The error of the
write of service.go is assigned to the blank identifier. -/
def featBody {σ : Type} (W : World σ) (outRoot : GoString) (f : Feat) (r : Sys σ) :
    Sys σ × Option Err :=
  andThen (perform W (.mkdirAll (featDir outRoot f)) r) fun r =>
  andThen (perform W (.writeFile (Join [featDir outRoot f, str "README.md"]) (featReadme f)) r) fun r =>
  let r := performBlank W (.writeFile (Join [featDir outRoot f, str "service.go"]) (featService f)) r
  (r, none)

/-- The loop of `Generate` over the features. -/
def featsLoop {σ : Type} (W : World σ) (outRoot : GoString) :
    List Feat → Sys σ → Sys σ × Option Err
  | [], r => (r, none)
  | f :: fs, r =>
    andThen (featBody W outRoot f r) fun r =>
    featsLoop W outRoot fs r

/-- The text of assets/README.md. -/
def assetsReadme : GoString :=
  str "# assets\n\nCentralized assets for the generated app.\n"

/-- The part of `Generate` after the specification was read. The error of
the write of assets/README.md is assigned to the blank identifier. -/
def generateFrom {σ : Type} (W : World σ) (spec : Spec) (mode : GoString) (r : Sys σ) :
    Sys σ × Option Err :=
  let outRoot := Join [str "out", mode]
  andThen (perform W (.mkdirAll outRoot) r) fun r =>
  andThen (writeGoMod W outRoot spec.Project.Module r) fun r =>
  andThen (writeAppMain W outRoot spec r) fun r =>
  andThen (baseDirsLoop W outRoot baseDirs r) fun r =>
  andThen (featsLoop W outRoot spec.Feats r) fun r =>
  let r := performBlank W (.writeFile (Join [outRoot, str "assets/README.md"]) assetsReadme) r
  (r, none)

/-- The function `Generate` of generate.go. Its `assetsFS` argument is never
used and is left out; output to the terminal is not modelled. -/
def Generate {σ : Type} (W : World σ) (unmarshal : GoString → Except Err Spec)
    (mode : GoString) (r : Sys σ) : Sys σ × Option Err :=
  match readSpec W unmarshal (str "aquamarine.yaml") r.fs with
  | .error e => (r, some e)
  | .ok spec => generateFrom W spec mode r

/-! ## The configuration read by the feature generator (config.go) -/

/-- The type `Validation`. -/
structure Validation where
  Name : GoString
  Value : GoString
  deriving DecidableEq, Repr

/-- The type `Field`; its field `Type` is spelled `Typ`. -/
structure Field where
  Typ : GoString
  Validations : List Validation
  deriving DecidableEq, Repr

/-- The type `ModelOptions`. -/
structure ModelOptions where
  Audit : Bool
  deriving DecidableEq, Repr

/-- A Go map as seen by one `range` loop: its entries in the order in which
that loop visits them. The language leaves the order unspecified, so two
loops over one map may see two different permutations of its entries. -/
abbrev GoMap (κ : Type) (α : Type) := List (κ × α)

/-- The type `Model`. A nil `Fields` map is `none`. -/
structure Model where
  Fields : Option (GoMap GoString Field)
  Options : Option ModelOptions
  deriving DecidableEq, Repr

/-- The type `Feature`; only `Models`, the one field the generator of models
reads, is kept. -/
structure Feature where
  Models : GoMap GoString Model
  deriving DecidableEq, Repr

/-- The type `Config`; only `Feats` is kept. -/
structure Config where
  Feats : GoMap GoString Feature
  deriving DecidableEq, Repr

/-! ## The generator of models (generator.go) -/

/-- The type `FieldValidationData`. -/
structure FieldValidationData where
  Name : GoString
  Value : GoString
  deriving DecidableEq, Repr

/-- The type `FieldTemplateData`; its field `Type` is spelled `Typ`. -/
structure FieldTemplateData where
  Name : GoString
  Typ : GoString
  JSONTag : GoString
  IsID : Bool
  Validations : List FieldValidationData
  deriving DecidableEq, Repr

/-- The type `ModelTemplateData`. -/
structure ModelTemplateData where
  PackageName : GoString
  ModelName : GoString
  Audit : Bool
  Fields : List FieldTemplateData
  NeedsFmt : Bool
  NeedsStrconv : Bool
  deriving DecidableEq, Repr

/-- A parsed template: from the data it is executed on, the bytes it sends
to its writer and the error it ends with, if any. -/
abbrev Template := ModelTemplateData → GoString × Option Err

/-- The type `FeatureGenerator`; of the templates only `Template`, the one
the generator of models executes, is kept. -/
structure FeatureGenerator where
  Config : Config
  OutputDir : GoString
  DevMode : Bool
  Template : Template

/-- The variables the loops of `GenerateModels` over fields and validations
update. -/
structure FieldLoopVars where
  Fields : List FieldTemplateData
  needsFmt : Bool
  needsStrconv : Bool
  deriving DecidableEq, Repr

/-- The `switch v.Name` of `GenerateModels`: whether the case
`"min_length", "max_length", "min", "max"` is taken. -/
def isLengthOrRange (name : GoString) : Bool :=
  decide (name = str "min_length" ∨ name = str "max_length" ∨
    name = str "min" ∨ name = str "max")

/-- The loop of `GenerateModels` over the validations of one field: each rule
is appended to the field's list, and the two flags are raised by a rule of
the four names. -/
def validationsLoop :
    List Validation → List FieldValidationData × Bool × Bool →
    List FieldValidationData × Bool × Bool
  | [], acc => acc
  | v :: vs, (vals, needsFmt, needsStrconv) =>
    let vals := vals ++ [{ Name := v.Name, Value := v.Value }]
    if isLengthOrRange v.Name then validationsLoop vs (vals, true, true)
    else validationsLoop vs (vals, needsFmt, needsStrconv)

/-- The loop of `GenerateModels` over the fields of one model, in the order
of the `range` over the map. -/
def fieldsLoop : GoMap GoString Field → FieldLoopVars → FieldLoopVars
  | [], vars => vars
  | (fieldName, field) :: rest, vars =>
    let goType := mapGoType field.Typ
    let res := validationsLoop field.Validations ([], vars.needsFmt, vars.needsStrconv)
    let fieldData : FieldTemplateData :=
      { Name := capitalizeFirst fieldName
        Typ := goType
        JSONTag := toSnakeCase fieldName
        IsID := false
        Validations := res.1 }
    fieldsLoop rest
      { Fields := vars.Fields ++ [fieldData], needsFmt := res.2.1, needsStrconv := res.2.2 }

/-- The record `GenerateModels` builds for one model before it touches the
file system. -/
def modelData (featName modelName : GoString) (model : Model) : ModelTemplateData :=
  let fields := match model.Fields with
    | none => []
    | some m => m
  let audit := match model.Options with
    | none => false
    | some o => o.Audit
  let vars := fieldsLoop fields { Fields := [], needsFmt := false, needsStrconv := false }
  { PackageName := featName
    ModelName := modelName
    Audit := audit
    Fields := vars.Fields
    NeedsFmt := vars.needsFmt
    NeedsStrconv := vars.needsStrconv }

/-- The path of the file of a model. -/
def modelPath (outputDir featName modelName : GoString) : GoString :=
  Join [outputDir, str "internal", str "feat", featName, stringsToLower modelName ++ str ".go"]

/-- The call `fmt.Errorf(msg + ": %w", err)` on the error of a step, if any;
`msg` is the formatted text up to and including the colon and space. -/
def wrapErr {σ : Type} (msg : GoString) (x : Sys σ × Option Err) : Sys σ × Option Err :=
  (x.1, x.2.map fun e => msg ++ e)

/-- The body of the inner loop of `GenerateModels`: one model of one feature.
Executing the template sends its output to the file; the error of the
execution is that of the write, or else that of the template. -/
def modelBody {σ : Type} (W : World σ) (fg : FeatureGenerator)
    (featName modelName : GoString) (model : Model) (r : Sys σ) : Sys σ × Option Err :=
  let path := modelPath fg.OutputDir featName modelName
  let data := modelData featName modelName model
  andThen (wrapErr (str "cannot create directory for model " ++ modelName ++ str ": ")
    (perform W (.mkdirAll (Dir path)) r)) fun r =>
  andThen (wrapErr (str "cannot create model file " ++ path ++ str ": ")
    (perform W (.create path) r)) fun r =>
  let out := fg.Template data
  andThen (wrapErr (str "cannot execute model template for " ++ modelName ++ str ": ")
    (perform W (.write path out.1) r)) fun r =>
  wrapErr (str "cannot execute model template for " ++ modelName ++ str ": ") (r, out.2)

/-- The inner loop of `GenerateModels`, over the models of one feature. -/
def modelsLoop {σ : Type} (W : World σ) (fg : FeatureGenerator) (featName : GoString) :
    GoMap GoString Model → Sys σ → Sys σ × Option Err
  | [], r => (r, none)
  | (modelName, model) :: rest, r =>
    andThen (modelBody W fg featName modelName model r) fun r =>
    modelsLoop W fg featName rest r

/-- The outer loop of `GenerateModels`, over the features. -/
def featuresLoop {σ : Type} (W : World σ) (fg : FeatureGenerator) :
    GoMap GoString Feature → Sys σ → Sys σ × Option Err
  | [], r => (r, none)
  | (featName, feat) :: rest, r =>
    andThen (modelsLoop W fg featName feat.Models r) fun r =>
    featuresLoop W fg rest r

/-- The method `FeatureGenerator.GenerateModels` of generator.go. -/
def GenerateModels {σ : Type} (W : World σ) (fg : FeatureGenerator) (r : Sys σ) :
    Sys σ × Option Err :=
  featuresLoop W fg fg.Config.Feats r

/-! ## The command line (app.go) -/

/-- The outcome of `App.Run`: the error it returns, and the mode it handed
to `Generate` if it got that far. -/
structure RunResult (σ : Type) where
  sys : Sys σ
  err : Option Err
  mode : Option GoString

/-- The function `App.Run` of app.go. The flag parser of package flag is a
parameter: from the arguments after the subcommand it yields the value of
the boolean flag `dev`, or an error. -/
def App.Run {σ : Type} (W : World σ) (unmarshal : GoString → Except Err Spec)
    (parseDev : List GoString → Except Err Bool) (args : List GoString) (r : Sys σ) :
    RunResult σ :=
  match args with
  | [] => { sys := r, err := none, mode := none }
  | [_] => { sys := r, err := none, mode := none }
  | _ :: sub :: rest =>
    if sub = str "generate" then
      match parseDev rest with
      | .error e => { sys := r, err := some e, mode := none }
      | .ok dev =>
        let mode := if dev then str "dev" else str "prod"
        let res := Generate W unmarshal mode r
        { sys := res.1, err := res.2, mode := some mode }
    else if sub = str "help" ∨ sub = str "-h" ∨ sub = str "--help" then
      { sys := r, err := none, mode := none }
    else { sys := r, err := some (str "unknown command"), mode := none }

/-! ## Auxiliary predicates -/

/-- Whether the first byte exists and is an ASCII letter or digit. -/
def headAlnum (s : GoString) : Bool :=
  match s.head? with
  | some d => isAlnum d
  | none => false

/-- Every byte is an ASCII letter or digit, or a separator that is directly
followed by an ASCII letter or digit. -/
def tailOK : GoString → Bool
  | [] => true
  | c :: rest => (if c = underscore then headAlnum rest else isAlnum c) && tailOK rest

/-- A pattern whose first group is exactly the first byte of the input. -/
def KeepsHead (re : MatchAt) : Prop :=
  ∀ c rest g1 g2 tail, re (c :: rest) = some (g1, g2, tail) → g1 = [c]

/-- A pattern whose matches consume at least one byte. -/
def Consumes (re : MatchAt) : Prop :=
  ∀ s g1 g2 tail, re s = some (g1, g2, tail) → tail.length < s.length

/-- The paths of the calls of a log, oldest first. -/
def logPaths (log : List LogEntry) : List GoString := log.map fun e => e.op.path

/-- A log entry that does not end a run: a call that succeeded, or a call
whose error was discarded and whose operation satisfies `D`. -/
def Quiet (D : FsOp → Prop) (e : LogEntry) : Prop :=
  (e.err = none ∧ e.discarded = false) ∨ (e.discarded = true ∧ D e.op)

/-- What a run adds to the log, against the error it returns: either no
error is returned and every entry is quiet, or the error returned is that of
the last entry, which was not discarded, and every entry before it is quiet. -/
def Outcome (D : FsOp → Prop) (added : List LogEntry) (err : Option Err) : Prop :=
  (err = none ∧ ∀ e ∈ added, Quiet D e) ∨
  ∃ init last x, added = init ++ [last] ∧ (∀ e ∈ init, Quiet D e) ∧
    last.err = some x ∧ last.discarded = false ∧ err = some x

/-- The writes of `Generate` whose error is discarded: service.go of each
feature, and assets/README.md. -/
def DiscardedWrite (spec : Spec) (mode : GoString) (op : FsOp) : Prop :=
  (∃ f ∈ spec.Feats, op = .writeFile
    (Join [featDir (Join [str "out", mode]) f, str "service.go"]) (featService f)) ∨
  op = .writeFile (Join [Join [str "out", mode], str "assets/README.md"]) assetsReadme

/-- A step of a run that only appends to the log, with an outcome as
described by `Outcome`. -/
def Logs {σ : Type} (D : FsOp → Prop) (f : Sys σ → Sys σ × Option Err) : Prop :=
  ∀ r, ∃ added, (f r).1.log = r.log ++ added ∧ Outcome D added (f r).2

/-! ## Concrete worlds and inputs -/

/-- A world in which every call succeeds and every file reads as empty. -/
def okWorld : World Unit where
  step := fun _ _ => ((), none)
  readFile := fun _ _ => .ok []

/-- A world in which exactly the writes to the given path fail. -/
def failWriteWorld (path : GoString) : World Unit where
  step := fun _ op =>
    match op with
    | .writeFile p _ => if p = path then ((), some (str "permission denied")) else ((), none)
    | _ => ((), none)
  readFile := fun _ _ => .ok []

/-- The system before a run: nothing logged. -/
def freshSys : Sys Unit := { fs := (), log := [] }

/-- A specification with the given module and features. -/
def specOf (module : GoString) (feats : List Feat) : Spec :=
  { Version := str "1", Project := { Name := str "shop", Module := module },
    WebPort := 8080, Feats := feats }

/-- A feature with the given name and one service method. -/
def featNamed (name : GoString) : Feat :=
  { Name := name, Kind := str "feature", Service := { Methods := [str "Create"] } }

/-- A specification with the one feature `billing`. -/
def billingSpec : Spec := specOf (str "example.com/shop") [featNamed (str "billing")]

/-- A specification whose one feature is named `../../../../escaped`. -/
def escapeSpec : Spec := specOf (str "example.com/shop") [featNamed (str "../../../../escaped")]

/-- A specification whose one feature is named `../../../prod/y`. -/
def crossSpec : Spec := specOf (str "example.com/shop") [featNamed (str "../../../prod/y")]

/-- A decoder that yields the given specification whatever the bytes. -/
def decodeTo (s : Spec) : GoString → Except Err Spec := fun _ => .ok s

/-- A model with the two fields `a` and `b`, visited in this order. -/
def twoFieldsAB : Model :=
  { Fields := some [(str "a", { Typ := str "text", Validations := [] }),
                    (str "b", { Typ := str "int", Validations := [] })],
    Options := none }

/-- The same map as in `twoFieldsAB`, visited in the other order. -/
def twoFieldsBA : Model :=
  { Fields := some [(str "b", { Typ := str "int", Validations := [] }),
                    (str "a", { Typ := str "text", Validations := [] })],
    Options := none }

/-- A template that prints the name of each field on a line of its own, in
the order of the record, and never fails. -/
def fieldListing : Template := fun data =>
  ((data.Fields.map fun f => f.Name ++ str "\n").flatten, none)

/-- A feature generator over the one feature `shop` with the one model
`Item`, printing with `fieldListing` under `out/dev`. -/
def listingGenerator (model : Model) : FeatureGenerator :=
  { Config := { Feats := [(str "shop", { Models := [(str "Item", model)] })] }
    OutputDir := str "out/dev"
    DevMode := true
    Template := fieldListing }

/-! ## Predicates on paths and on pairs of runs -/

/-- A real path element: not empty, neither `.` nor `..`, and without a
separator. -/
def Plain (e : GoString) : Prop := e ≠ [] ∧ e ≠ str "." ∧ e ≠ str ".." ∧ slash ∉ e

/-- A step of a run that only appends to the log calls that satisfy `Q`. -/
def Adds {σ : Type} (Q : FsOp → Prop) (f : Sys σ → Sys σ × Option Err) : Prop :=
  ∀ r, ∃ added, (f r).1.log = r.log ++ added ∧ ∀ e ∈ added, Q e.op

instance (e : GoString) : Decidable (Plain e) := by
  unfold Plain; exact inferInstance

/-- The call with its path replaced. -/
def FsOp.withPath (p : GoString) : FsOp → FsOp
  | .mkdirAll _ => .mkdirAll p
  | .writeFile _ d => .writeFile p d
  | .create _ => .create p
  | .write _ d => .write p d

/-- A world in which no call fails. -/
def NeverFails {σ : Type} (W : World σ) : Prop := ∀ s op, (W.step s op).2 = none

/-- Two calls that are the same call (same kind, same data) on the same
relative path of real elements below two roots. -/
def Twin (root1 root2 : List GoString) (op1 op2 : FsOp) : Prop :=
  ∃ rel : List GoString, op1.path = joinSlash (root1 ++ rel) ∧
    op2.path = joinSlash (root2 ++ rel) ∧ op1.withPath [] = op2.withPath []

/-- Two steps that succeed and append twin calls to their logs, pairwise. -/
def Sim {σ τ : Type} (R : FsOp → FsOp → Prop) (f : Sys σ → Sys σ × Option Err)
    (g : Sys τ → Sys τ × Option Err) : Prop :=
  ∀ r1 r2, ∃ a1 a2, (f r1).1.log = r1.log ++ a1 ∧ (g r2).1.log = r2.log ++ a2 ∧
    (f r1).2 = none ∧ (g r2).2 = none ∧
    List.Forall₂ (fun e1 e2 => R e1.op e2.op ∧ e1.discarded = e2.discarded) a1 a2

/-! ## The calls of a run of `Generate` -/

/-- The calls of `safeWriteFile`, each with the flag that tells whether its
error is assigned to the blank identifier. -/
def safeWriteCalls (path data : GoString) : List (FsOp × Bool) :=
  [(.mkdirAll (Dir path), false), (.writeFile path data, false)]

/-- The calls of one pass of the loop of `Generate` over the features: the
directory and README.md, whose errors are looked at, and service.go, whose
error is assigned to the blank identifier. -/
def featCalls (outRoot : GoString) (f : Feat) : List (FsOp × Bool) :=
  [(.mkdirAll (featDir outRoot f), false),
   (.writeFile (Join [featDir outRoot f, str "README.md"]) (featReadme f), false),
   (.writeFile (Join [featDir outRoot f, str "service.go"]) (featService f), true)]

/-- The calls of a run of `Generate` that is not cut short, in the order of
generate.go, each with the flag that tells whether its error is assigned to
the blank identifier: only service.go of each feature and assets/README.md. -/
def generateCalls (spec : Spec) (mode : GoString) : List (FsOp × Bool) :=
  [(.mkdirAll (Join [str "out", mode]), false)] ++
  (safeWriteCalls (Join [Join [str "out", mode], str "go.mod"])
      (goModContent spec.Project.Module) ++
  (safeWriteCalls (Join [Join [str "out", mode], str "main.go"]) (appMainContent spec) ++
  (baseDirs.map (fun d => (FsOp.mkdirAll (Join [Join [str "out", mode], d]), false)) ++
  ((spec.Feats.map (featCalls (Join [str "out", mode]))).flatten ++
  [(.writeFile (Join [Join [str "out", mode], str "assets/README.md"]) assetsReadme, true)]))))

/-- The calls of a log, each with its flag. -/
def logCalls (log : List LogEntry) : List (FsOp × Bool) :=
  log.map fun e => (e.op, e.discarded)

/-- A step of a run that makes the calls of `calls` in order, with their
flags, up to the point where it stops; when it returns no error it has made
them all. -/
def Follows {σ : Type} (calls : List (FsOp × Bool)) (f : Sys σ → Sys σ × Option Err) : Prop :=
  ∀ r, ∃ added, (f r).1.log = r.log ++ added ∧ logCalls added <+: calls ∧
    ((f r).2 = none → logCalls added = calls)

/-- A specification with the two features `billing` and `orders`. -/
def twoFeatsSpec : Spec :=
  specOf (str "example.com/shop") [featNamed (str "billing"), featNamed (str "orders")]

/-! ## Lemmas on the regular expression passes -/

theorem matchFirstCap_some {s g1 g2 tail : GoString}
    (h : matchFirstCap s = some (g1, g2, tail)) :
    ∃ c u l rest, s = c :: u :: l :: rest ∧ g1 = [c] ∧
      g2 = u :: l :: rest.takeWhile isLower ∧ tail = rest.dropWhile isLower ∧
      isUpper u = true ∧ isLower l = true := by
  match s, h with
  | c :: u :: l :: rest, h =>
    simp only [matchFirstCap] at h
    split at h
    · rename_i hc
      simp only [Option.some.injEq, Prod.mk.injEq] at h
      exact ⟨c, u, l, rest, rfl, h.1.symm, h.2.1.symm, h.2.2.symm, hc.2.1, hc.2.2⟩
    · cases h
  | [], h => simp [matchFirstCap] at h
  | [_], h => simp [matchFirstCap] at h
  | [_, _], h => simp [matchFirstCap] at h

theorem matchAllCap_some {s g1 g2 tail : GoString}
    (h : matchAllCap s = some (g1, g2, tail)) :
    ∃ x y, s = x :: y :: tail ∧ g1 = [x] ∧ g2 = [y] ∧
      (isLower x || isDigit x) = true ∧ isUpper y = true := by
  match s, h with
  | x :: y :: rest, h =>
    simp only [matchAllCap] at h
    split at h
    · rename_i hc
      simp only [Option.some.injEq, Prod.mk.injEq] at h
      obtain ⟨h1, h2, h3⟩ := h
      subst h3
      exact ⟨x, y, rfl, h1.symm, h2.symm, hc.1, hc.2⟩
    · cases h
  | [], h => simp [matchAllCap] at h
  | [_], h => simp [matchAllCap] at h

theorem matchFirstCap_keepsHead : KeepsHead matchFirstCap := by
  intro c rest g1 g2 tail h
  obtain ⟨c', u, l, r, hs, hg1, -⟩ := matchFirstCap_some h
  simp only [List.cons.injEq] at hs
  rw [hg1, hs.1]

theorem matchAllCap_keepsHead : KeepsHead matchAllCap := by
  intro c rest g1 g2 tail h
  obtain ⟨x, y, hs, hg1, -⟩ := matchAllCap_some h
  simp only [List.cons.injEq] at hs
  rw [hg1, hs.1]

theorem matchFirstCap_consumes : Consumes matchFirstCap := by
  intro s g1 g2 tail h
  obtain ⟨c, u, l, r, hs, -, -, ht, -⟩ := matchFirstCap_some h
  subst hs ht
  have := (List.dropWhile_sublist (l := r) isLower).length_le
  simp only [List.length_cons]
  omega

theorem matchAllCap_consumes : Consumes matchAllCap := by
  intro s g1 g2 tail h
  obtain ⟨x, y, hs, -⟩ := matchAllCap_some h
  subst hs
  simp only [List.length_cons]
  omega

/-- With a pattern that consumes input, any step bound of at least the
length of the input gives the same result: the bound `len(src)` used by
`ReplaceAllString` never cuts the scan short. -/
theorem replaceAll_fuel (re : MatchAt) (hre : Consumes re) :
    ∀ (n m : Nat) (s : GoString), s.length ≤ n → s.length ≤ m →
      replaceAll re n s = replaceAll re m s := by
  intro n
  induction n with
  | zero =>
    intro m s hn hm
    have : s = [] := List.eq_nil_of_length_eq_zero (by omega)
    subst this
    cases m <;> rfl
  | succ n ih =>
    intro m s hn hm
    match s, m with
    | [], 0 => rfl
    | [], _ + 1 => rfl
    | c :: rest, 0 => simp at hm
    | c :: rest, m + 1 =>
      simp only [replaceAll]
      simp only [List.length_cons] at hn hm
      cases h : re (c :: rest) with
      | none => simp only [ih m rest (by omega) (by omega)]
      | some t =>
        obtain ⟨g1, g2, tail⟩ := t
        have hlt := hre _ _ _ _ h
        simp only [List.length_cons] at hlt
        simp only [ih m tail (by omega) (by omega)]

theorem replaceAll_head (re : MatchAt) (hre : KeepsHead re) :
    ∀ (n : Nat) (s : GoString), (replaceAll re n s).head? = s.head? := by
  intro n s
  match n, s with
  | 0, s => rfl
  | _ + 1, [] => rfl
  | n + 1, c :: rest =>
    simp only [replaceAll]
    cases h : re (c :: rest) with
    | none => rfl
    | some t =>
      obtain ⟨g1, g2, tail⟩ := t
      rw [hre _ _ _ _ _ h]
      rfl

theorem isAlnum_ne_underscore {b : Nat} (h : isAlnum b = true) : b ≠ underscore := by
  intro hb
  subst hb
  revert h
  decide

theorem tailOK_cons_alnum {c : Nat} {rest : GoString} (hc : isAlnum c = true)
    (h : tailOK rest = true) : tailOK (c :: rest) = true := by
  simp [tailOK, isAlnum_ne_underscore hc, hc, h]

theorem tailOK_cons_underscore {rest : GoString} (hh : headAlnum rest = true)
    (h : tailOK rest = true) : tailOK (underscore :: rest) = true := by
  simp [tailOK, hh, h]

theorem tailOK_append_alnum {a b : GoString} (ha : ∀ x ∈ a, isAlnum x = true)
    (hb : tailOK b = true) : tailOK (a ++ b) = true := by
  induction a with
  | nil => simpa using hb
  | cons x xs ih =>
    have hx := ha x (List.mem_cons_self _ _)
    exact tailOK_cons_alnum hx (ih fun y hy => ha y (List.mem_cons_of_mem _ hy))

theorem tailOK_of_alnum {a : GoString} (ha : ∀ x ∈ a, isAlnum x = true) :
    tailOK a = true := by
  have := tailOK_append_alnum (b := []) ha rfl
  simpa using this

theorem tailOK_tail {c : Nat} {rest : GoString} (h : tailOK (c :: rest) = true) :
    tailOK rest = true := by
  simp only [tailOK, Bool.and_eq_true] at h
  exact h.2

theorem tailOK_suffix {a b : GoString} (h : tailOK (a ++ b) = true) : tailOK b = true := by
  induction a with
  | nil => simpa using h
  | cons x xs ih => exact ih (tailOK_tail h)

theorem isUpper_isAlnum {b : Nat} (h : isUpper b = true) : isAlnum b = true := by
  simp [isAlnum, h]

theorem isLower_isAlnum {b : Nat} (h : isLower b = true) : isAlnum b = true := by
  simp [isAlnum, h]

/-- The first pass on letters and digits: every separator it inserts stands
before a capital. -/
theorem firstCap_tailOK :
    ∀ (n : Nat) (s : GoString), (∀ b ∈ s, isAlnum b = true) →
      tailOK (replaceAll matchFirstCap n s) = true := by
  intro n
  induction n with
  | zero => intro s hs; exact tailOK_of_alnum hs
  | succ n ih =>
    intro s hs
    match s with
    | [] => rfl
    | c :: rest =>
      simp only [replaceAll]
      have hc := hs c (List.mem_cons_self _ _)
      have hrest : ∀ b ∈ rest, isAlnum b = true := fun b hb => hs b (List.mem_cons_of_mem _ hb)
      cases h : matchFirstCap (c :: rest) with
      | none => exact tailOK_cons_alnum hc (ih rest hrest)
      | some t =>
        obtain ⟨g1, g2, tail⟩ := t
        obtain ⟨c', u, l, r, hsq, hg1, hg2, ht, hu, hl⟩ := matchFirstCap_some h
        simp only [List.cons.injEq] at hsq
        obtain ⟨rfl, hr⟩ := hsq
        subst hr hg1 hg2 ht
        have hr : ∀ b ∈ r, isAlnum b = true := fun b hb =>
          hrest b (List.mem_cons_of_mem _ (List.mem_cons_of_mem _ hb))
        have htail := ih (List.dropWhile isLower r) fun b hb =>
          hr b ((List.dropWhile_sublist isLower).subset hb)
        have hg : ∀ b ∈ u :: l :: List.takeWhile isLower r, isAlnum b = true := by
          intro b hb
          simp only [List.mem_cons] at hb
          rcases hb with rfl | rfl | hb
          · exact isUpper_isAlnum hu
          · exact isLower_isAlnum hl
          · exact hr b ((List.takeWhile_sublist isLower).subset hb)
        have h2 := tailOK_append_alnum hg htail
        show tailOK (c :: underscore :: ((u :: l :: List.takeWhile isLower r) ++
          replaceAll matchFirstCap n (List.dropWhile isLower r))) = true
        refine tailOK_cons_alnum hc (tailOK_cons_underscore ?_ h2)
        simp [headAlnum, isUpper_isAlnum hu]

theorem headAlnum_replaceAll (re : MatchAt) (hre : KeepsHead re) (n : Nat) (s : GoString) :
    headAlnum (replaceAll re n s) = headAlnum s := by
  simp only [headAlnum, replaceAll_head re hre]

/-- The second pass keeps every separator in front of a letter or digit. -/
theorem allCap_tailOK :
    ∀ (n : Nat) (t : GoString), tailOK t = true →
      tailOK (replaceAll matchAllCap n t) = true := by
  intro n
  induction n with
  | zero => intro t ht; exact ht
  | succ n ih =>
    intro t ht
    match t with
    | [] => rfl
    | c :: rest =>
      simp only [replaceAll]
      cases h : matchAllCap (c :: rest) with
      | none =>
        have hrest := ih rest (tailOK_tail ht)
        simp only [tailOK, Bool.and_eq_true] at ht ⊢
        refine ⟨?_, hrest⟩
        by_cases hc : c = underscore
        · simp only [hc, if_true] at ht ⊢
          rw [headAlnum_replaceAll _ matchAllCap_keepsHead]
          exact ht.1
        · simp only [hc, if_false] at ht ⊢
          exact ht.1
      | some tr =>
        obtain ⟨g1, g2, tail⟩ := tr
        obtain ⟨x, y, hsq, hg1, hg2, hx, hy⟩ := matchAllCap_some h
        simp only [List.cons.injEq] at hsq
        obtain ⟨rfl, hr⟩ := hsq
        subst hr hg1 hg2
        have hxa : isAlnum c = true := by
          simp only [Bool.or_eq_true] at hx
          rcases hx with hx | hx
          · exact isLower_isAlnum hx
          · simp [isAlnum, hx]
        have hya := isUpper_isAlnum hy
        have htl := ih tail (tailOK_tail (tailOK_tail ht))
        show tailOK (c :: underscore :: y :: replaceAll matchAllCap n tail) = true
        refine tailOK_cons_alnum hxa (tailOK_cons_underscore ?_ (tailOK_cons_alnum hya htl))
        simp [headAlnum, hya]

theorem toLowerByte_eq_underscore {b : Nat} : toLowerByte b = underscore ↔ b = underscore := by
  unfold toLowerByte isUpper underscore
  split
  · rename_i h
    simp only [Bool.and_eq_true, decide_eq_true_eq] at h
    omega
  · rfl

theorem toLowerByte_isAlnum {b : Nat} (h : isAlnum b = true) :
    isLower (toLowerByte b) = true ∨ isDigit (toLowerByte b) = true := by
  unfold toLowerByte
  split
  · rename_i hu
    left
    simp only [isUpper, isLower, Bool.and_eq_true, decide_eq_true_eq] at hu ⊢
    omega
  · rename_i hu
    simp only [isAlnum, Bool.or_eq_true] at h
    rcases h with (h | h) | h
    · exact absurd h hu
    · exact Or.inl h
    · exact Or.inr h

theorem toLowerByte_keeps_alnum {b : Nat} (h : isAlnum b = true) :
    isAlnum (toLowerByte b) = true := by
  rcases toLowerByte_isAlnum h with h | h
  · exact isLower_isAlnum h
  · simp [isAlnum, h]

theorem headAlnum_map_toLower {t : GoString} (h : headAlnum t = true) :
    headAlnum (t.map toLowerByte) = true := by
  cases t with
  | nil => simp [headAlnum] at h
  | cons d rest =>
    simp only [headAlnum, List.head?_cons, List.map_cons] at h ⊢
    exact toLowerByte_keeps_alnum h

theorem tailOK_map_toLower {t : GoString} (h : tailOK t = true) :
    tailOK (t.map toLowerByte) = true := by
  induction t with
  | nil => rfl
  | cons c rest ih =>
    have hrest := ih (tailOK_tail h)
    simp only [tailOK, Bool.and_eq_true] at h
    by_cases hc : c = underscore
    · subst hc
      simp only [if_true] at h
      have : toLowerByte underscore = underscore := toLowerByte_eq_underscore.mpr rfl
      rw [List.map_cons, this]
      exact tailOK_cons_underscore (headAlnum_map_toLower h.1) hrest
    · simp only [hc, if_false] at h
      rw [List.map_cons]
      exact tailOK_cons_alnum (toLowerByte_keeps_alnum h.1) hrest

theorem tailOK_mem {t : GoString} (h : tailOK t = true) :
    ∀ b ∈ t, isAlnum b = true ∨ b = underscore := by
  induction t with
  | nil => intro b hb; cases hb
  | cons c rest ih =>
    intro b hb
    rcases List.mem_cons.mp hb with rfl | hb
    · by_cases hc : b = underscore
      · exact Or.inr hc
      · simp only [tailOK, hc, if_false, Bool.and_eq_true] at h
        exact Or.inl h.1
    · exact ih (tailOK_tail h) b hb

theorem tailOK_no_double {t : GoString} (h : tailOK t = true) :
    ¬ ([underscore, underscore] <:+: t) := by
  rintro ⟨a, b, hab⟩
  subst hab
  rw [List.append_assoc] at h
  have h2 : tailOK (underscore :: underscore :: b) = true := tailOK_suffix h
  have h3 : headAlnum (underscore :: b) = false := rfl
  simp only [tailOK, if_true, Bool.and_eq_true, h3] at h2
  exact Bool.noConfusion h2.1

theorem tailOK_last {t : GoString} (h : tailOK t = true) :
    t.getLast? ≠ some underscore := by
  intro hl
  obtain ⟨a, ha⟩ := List.getLast?_eq_some_iff.mp hl
  subst ha
  have h2 := tailOK_suffix h
  simp [tailOK, headAlnum] at h2

/-- The two passes of `toSnakeCase` on letters and digits, before the final
lower-casing. -/
theorem passes_tailOK (s : GoString) (h : ∀ b ∈ s, isAlnum b = true) :
    tailOK (ReplaceAllString matchAllCap (ReplaceAllString matchFirstCap s)) = true :=
  allCap_tailOK _ _ (firstCap_tailOK _ _ h)

theorem passes_head (s : GoString) :
    (ReplaceAllString matchAllCap (ReplaceAllString matchFirstCap s)).head? = s.head? := by
  unfold ReplaceAllString
  rw [replaceAll_head _ matchAllCap_keepsHead, replaceAll_head _ matchFirstCap_keepsHead]

/-! ## C1 -/

/-- C1: for every identifier made up only of ASCII letters and digits,
`toSnakeCase` returns a string that does not start with `_`, does not end
with `_`, holds no two adjacent `_`, and consists only of lowercase ASCII
letters, digits and `_`. Its first byte is the lower-cased first byte of the
identifier, so the result of a non-empty identifier is not empty. (The
empty identifier is covered too: it is mapped to the empty string.) -/
theorem toSnakeCase_separators (s : GoString) (h : ∀ b ∈ s, isAlnum b = true) :
    (toSnakeCase s).head? ≠ some underscore ∧
    (toSnakeCase s).getLast? ≠ some underscore ∧
    ¬ ([underscore, underscore] <:+: toSnakeCase s) ∧
    (∀ b ∈ toSnakeCase s, isLower b = true ∨ isDigit b = true ∨ b = underscore) ∧
    (toSnakeCase s).head? = s.head?.map toLowerByte := by
  have hp := passes_tailOK s h
  have hm := tailOK_map_toLower hp
  have hhead : (toSnakeCase s).head? = s.head?.map toLowerByte := by
    show (List.map toLowerByte _).head? = _
    rw [List.head?_map, passes_head]
  refine ⟨?_, tailOK_last hm, tailOK_no_double hm, ?_, hhead⟩
  · rw [hhead]
    cases s with
    | nil => simp
    | cons c rest =>
      simp only [List.head?_cons, Option.map_some', ne_eq, Option.some.injEq]
      rw [toLowerByte_eq_underscore]
      exact isAlnum_ne_underscore (h c (List.mem_cons_self _ _))
  · intro b hb
    change b ∈ List.map toLowerByte _ at hb
    obtain ⟨a, ha, rfl⟩ := List.mem_map.mp hb
    rcases tailOK_mem hp a ha with ha | ha
    · rcases toLowerByte_isAlnum ha with h1 | h1
      · exact Or.inl h1
      · exact Or.inr (Or.inl h1)
    · exact Or.inr (Or.inr (toLowerByte_eq_underscore.mpr ha))

theorem toSnakeCase_separators_witness :
    (∀ b ∈ str "orderItemSKU", isAlnum b = true) ∧
    (toSnakeCase (str "orderItemSKU")).head? ≠ some underscore ∧
    (toSnakeCase (str "orderItemSKU")).getLast? ≠ some underscore ∧
    ¬ ([underscore, underscore] <:+: toSnakeCase (str "orderItemSKU")) ∧
    (∀ b ∈ toSnakeCase (str "orderItemSKU"),
      isLower b = true ∨ isDigit b = true ∨ b = underscore) ∧
    (toSnakeCase (str "orderItemSKU")).head? = (str "orderItemSKU").head?.map toLowerByte :=
  ⟨by decide, toSnakeCase_separators (str "orderItemSKU") (by decide)⟩

/-! ## C2 -/

/-- C2: `toSnakeCase` is the first pass `(.)([A-Z][a-z]+)`, then the second
pass `([a-z0-9])([A-Z])`, then lower-casing, and it maps `HTTPServer` to
`http_server`, `userID` to `user_id` and `simpleName` to `simple_name`. -/
theorem toSnakeCase_examples :
    (∀ s, toSnakeCase s =
      stringsToLower (ReplaceAllString matchAllCap (ReplaceAllString matchFirstCap s))) ∧
    ReplaceAllString matchFirstCap (str "HTTPServer") = str "HTTP_Server" ∧
    ReplaceAllString matchAllCap (str "HTTP_Server") = str "HTTP_Server" ∧
    toSnakeCase (str "HTTPServer") = str "http_server" ∧
    ReplaceAllString matchFirstCap (str "userID") = str "userID" ∧
    ReplaceAllString matchAllCap (str "userID") = str "user_ID" ∧
    toSnakeCase (str "userID") = str "user_id" ∧
    ReplaceAllString matchFirstCap (str "simpleName") = str "simple_Name" ∧
    ReplaceAllString matchAllCap (str "simple_Name") = str "simple_Name" ∧
    toSnakeCase (str "simpleName") = str "simple_name" := by
  refine ⟨fun _ => rfl, ?_, ?_, ?_, ?_, ?_, ?_, ?_, ?_, ?_⟩ <;> decide

/-! ## C3 -/

/-- C3: `mapGoType` is total and returns `string` for `text`, `string` and
`email`, `bool` for `bool`, `uuid.UUID` for `uuid`, `int` for `int`, `int64`
for `int64`, `float64` for `float64`, and `any` for every other tag (the
empty tag and `frobnicate` among them); the result is never empty. -/
theorem mapGoType_table :
    mapGoType (str "text") = str "string" ∧
    mapGoType (str "string") = str "string" ∧
    mapGoType (str "email") = str "string" ∧
    mapGoType (str "bool") = str "bool" ∧
    mapGoType (str "uuid") = str "uuid.UUID" ∧
    mapGoType (str "int") = str "int" ∧
    mapGoType (str "int64") = str "int64" ∧
    mapGoType (str "float64") = str "float64" ∧
    mapGoType [] = str "any" ∧
    mapGoType (str "frobnicate") = str "any" ∧
    (∀ tag : GoString,
      tag ∈ [str "text", str "string", str "email", str "bool", str "uuid",
             str "int", str "int64", str "float64"] ∨
      mapGoType tag = str "any") ∧
    (∀ tag : GoString, mapGoType tag ≠ []) := by
  refine ⟨by decide, by decide, by decide, by decide, by decide, by decide, by decide,
    by decide, by decide, by decide, ?_, ?_⟩
  · intro tag
    by_cases h1 : tag = str "text" ∨ tag = str "string" ∨ tag = str "email"
    · rcases h1 with h | h | h <;> simp [h]
    by_cases h2 : tag = str "bool"
    · simp [h2]
    by_cases h3 : tag = str "uuid"
    · simp [h3]
    by_cases h4 : tag = str "int"
    · simp [h4]
    by_cases h5 : tag = str "int64"
    · simp [h5]
    by_cases h6 : tag = str "float64"
    · simp [h6]
    right
    simp only [mapGoType, h1, h2, h3, h4, h5, h6, if_false]
  · intro tag
    unfold mapGoType
    repeat' split
    all_goals decide

/-! ## C4 -/

/-- C5, evaluated on a crafted feature name: with the one feature
`../../../../escaped` and mode `prod`, `Generate` succeeds and creates the
directory `escaped` and writes `escaped/README.md` and `escaped/service.go`,
none of which lies under `out/prod`; the model file `GenerateModels` would
write for that feature is `escaped/invoice.go`. -/
theorem Generate_escapes_output_root :
    (Generate okWorld (decodeTo escapeSpec) (str "prod") freshSys).2 = none ∧
    logPaths (Generate okWorld (decodeTo escapeSpec) (str "prod") freshSys).1.log =
      [str "out/prod", str "out/prod", str "out/prod/go.mod", str "out/prod",
       str "out/prod/main.go", str "out/prod/internal/platform", str "out/prod/internal/web",
       str "out/prod/internal/feat", str "out/prod/assets/templates",
       str "out/prod/assets/migrations/sqlite", str "out/prod/assets/seeds/sqlite",
       str "out/prod/assets/queries/sqlite", str "escaped", str "escaped/README.md",
       str "escaped/service.go", str "out/prod/assets/README.md"] ∧
    ¬ isUnder (str "out/prod") (str "escaped") ∧
    ¬ isUnder (str "out/prod") (str "escaped/README.md") ∧
    ¬ isUnder (str "out/prod") (str "escaped/service.go") ∧
    modelPath (str "out/prod") (str "../../../../escaped") (str "Invoice") =
      str "escaped/invoice.go" ∧
    ¬ isUnder (str "out/prod") (str "escaped/invoice.go") := by
  refine ⟨by decide, by decide, by decide, by decide, by decide, by decide, by decide⟩

/-! ## C6 -/

theorem perform_logs {σ : Type} (D : FsOp → Prop) (W : World σ) (op : FsOp) :
    Logs D (perform W op) := by
  intro r
  refine ⟨[{ op := op, err := (W.step r.fs op).2, discarded := false }], rfl, ?_⟩
  cases h : (W.step r.fs op).2 with
  | none =>
    left
    refine ⟨by simp [perform, h], ?_⟩
    intro e he
    simp only [List.mem_singleton] at he
    subst he
    exact Or.inl ⟨rfl, rfl⟩
  | some x =>
    right
    exact ⟨[], _, x, rfl, by simp, rfl, rfl, by simp [perform, h]⟩

theorem performBlank_logs {σ : Type} (D : FsOp → Prop) (W : World σ) (op : FsOp) (hD : D op) :
    Logs D (fun r => (performBlank W op r, none)) := by
  intro r
  refine ⟨[{ op := op, err := (W.step r.fs op).2, discarded := true }], rfl, ?_⟩
  left
  refine ⟨rfl, ?_⟩
  intro e he
  simp only [List.mem_singleton] at he
  subst he
  exact Or.inr ⟨rfl, hD⟩

theorem pure_logs {σ : Type} (D : FsOp → Prop) :
    Logs D (fun r : Sys σ => (r, none)) := by
  intro r
  exact ⟨[], by simp, Or.inl ⟨rfl, by simp⟩⟩

theorem andThen_logs {σ : Type} (D : FsOp → Prop) (f k : Sys σ → Sys σ × Option Err)
    (hf : Logs D f) (hk : Logs D k) : Logs D (fun r => andThen (f r) k) := by
  intro r
  obtain ⟨a1, hl1, ho1⟩ := hf r
  cases h : (f r).2 with
  | some x =>
    refine ⟨a1, ?_, ?_⟩
    · simp only [andThen, h]; exact hl1
    · simp only [andThen, h]; rw [h] at ho1; exact ho1
  | none =>
    obtain ⟨a2, hl2, ho2⟩ := hk (f r).1
    have hq1 : ∀ e ∈ a1, Quiet D e := by
      rw [h] at ho1
      rcases ho1 with ⟨-, hq⟩ | ⟨_, _, _, _, _, _, _, habs⟩
      · exact hq
      · cases habs
    refine ⟨a1 ++ a2, ?_, ?_⟩
    · simp only [andThen, h]; rw [hl2, hl1, List.append_assoc]
    · simp only [andThen, h]
      rcases ho2 with ⟨he, hq2⟩ | ⟨init, last, x, ha, hq2, hle, hld, he⟩
      · left
        refine ⟨he, ?_⟩
        intro e hmem
        rcases List.mem_append.mp hmem with hm | hm
        · exact hq1 e hm
        · exact hq2 e hm
      · right
        refine ⟨a1 ++ init, last, x, by rw [ha, List.append_assoc], ?_, hle, hld, he⟩
        intro e hmem
        rcases List.mem_append.mp hmem with hm | hm
        · exact hq1 e hm
        · exact hq2 e hm

theorem safeWriteFile_logs {σ : Type} (D : FsOp → Prop) (W : World σ) (path data : GoString) :
    Logs D (safeWriteFile W path data) :=
  andThen_logs D _ _ (perform_logs D W _) (perform_logs D W _)

theorem baseDirsLoop_logs {σ : Type} (D : FsOp → Prop) (W : World σ) (outRoot : GoString)
    (ds : List GoString) : Logs D (baseDirsLoop W outRoot ds) := by
  induction ds with
  | nil => exact pure_logs D
  | cons d ds ih => exact andThen_logs D _ _ (perform_logs D W _) ih

theorem featBody_logs {σ : Type} (D : FsOp → Prop) (W : World σ) (outRoot : GoString) (f : Feat)
    (hD : D (.writeFile (Join [featDir outRoot f, str "service.go"]) (featService f))) :
    Logs D (featBody W outRoot f) :=
  andThen_logs D _ _ (perform_logs D W _)
    (andThen_logs D _ _ (perform_logs D W _) (performBlank_logs D W _ hD))

theorem featsLoop_logs {σ : Type} (D : FsOp → Prop) (W : World σ) (outRoot : GoString)
    (fs : List Feat)
    (hD : ∀ f ∈ fs, D (.writeFile (Join [featDir outRoot f, str "service.go"]) (featService f))) :
    Logs D (featsLoop W outRoot fs) := by
  induction fs with
  | nil => exact pure_logs D
  | cons f fs ih =>
    exact andThen_logs D _ _ (featBody_logs D W outRoot f (hD f (List.mem_cons_self _ _)))
      (ih fun g hg => hD g (List.mem_cons_of_mem _ hg))

theorem generateFrom_logs {σ : Type} (W : World σ) (spec : Spec) (mode : GoString) :
    Logs (DiscardedWrite spec mode) (generateFrom W spec mode) := by
  refine andThen_logs _ _ _ (perform_logs _ W _) ?_
  refine andThen_logs _ _ _ (safeWriteFile_logs _ W _ _) ?_
  refine andThen_logs _ _ _ (safeWriteFile_logs _ W _ _) ?_
  refine andThen_logs _ _ _ (baseDirsLoop_logs _ W _ _) ?_
  refine andThen_logs _ _ _ (featsLoop_logs _ W _ _ ?_) ?_
  · intro f hf
    exact Or.inl ⟨f, hf, rfl⟩
  · exact performBlank_logs _ W _ (Or.inr rfl)

theorem perform_follows {σ : Type} (W : World σ) (op : FsOp) :
    Follows [(op, false)] (perform W op) := by
  intro r
  exact ⟨[{ op := op, err := (W.step r.fs op).2, discarded := false }], rfl,
    List.prefix_refl _, fun _ => rfl⟩

theorem performBlank_follows {σ : Type} (W : World σ) (op : FsOp) :
    Follows [(op, true)] (fun r => (performBlank W op r, none)) := by
  intro r
  exact ⟨[{ op := op, err := (W.step r.fs op).2, discarded := true }], rfl,
    List.prefix_refl _, fun _ => rfl⟩

theorem pure_follows {σ : Type} : Follows [] (fun r : Sys σ => (r, none)) := by
  intro r
  exact ⟨[], by simp, List.prefix_refl _, fun _ => rfl⟩

theorem andThen_follows {σ : Type} (c1 c2 : List (FsOp × Bool))
    (f k : Sys σ → Sys σ × Option Err) (hf : Follows c1 f) (hk : Follows c2 k) :
    Follows (c1 ++ c2) (fun r => andThen (f r) k) := by
  intro r
  obtain ⟨a1, hl1, hp1, he1⟩ := hf r
  cases h : (f r).2 with
  | some x =>
    refine ⟨a1, ?_, hp1.trans (List.prefix_append _ _), ?_⟩
    · simp only [andThen, h]; exact hl1
    · intro habs; simp only [andThen, h] at habs; cases habs
  | none =>
    obtain ⟨a2, hl2, hp2, he2⟩ := hk (f r).1
    have h1 := he1 h
    refine ⟨a1 ++ a2, ?_, ?_, ?_⟩
    · simp only [andThen, h]; rw [hl2, hl1, List.append_assoc]
    · simp only [logCalls, List.map_append] at h1 hp2 ⊢
      rw [h1]
      exact (List.prefix_append_right_inj _).mpr hp2
    · intro hnone
      simp only [andThen, h] at hnone
      have h2 := he2 hnone
      simp only [logCalls, List.map_append] at h1 h2 ⊢
      rw [h1, h2]

theorem safeWriteFile_follows {σ : Type} (W : World σ) (path data : GoString) :
    Follows (safeWriteCalls path data) (safeWriteFile W path data) :=
  andThen_follows _ _ _ _ (perform_follows W _) (perform_follows W _)

theorem baseDirsLoop_follows {σ : Type} (W : World σ) (outRoot : GoString)
    (ds : List GoString) :
    Follows (ds.map fun d => (FsOp.mkdirAll (Join [outRoot, d]), false))
      (baseDirsLoop W outRoot ds) := by
  induction ds with
  | nil => exact pure_follows
  | cons d ds ih => exact andThen_follows _ _ _ _ (perform_follows W _) ih

theorem featBody_follows {σ : Type} (W : World σ) (outRoot : GoString) (f : Feat) :
    Follows (featCalls outRoot f) (featBody W outRoot f) :=
  andThen_follows _ _ _ _ (perform_follows W _)
    (andThen_follows _ _ _ _ (perform_follows W _) (performBlank_follows W _))

theorem featsLoop_follows {σ : Type} (W : World σ) (outRoot : GoString) (fs : List Feat) :
    Follows (fs.map (featCalls outRoot)).flatten (featsLoop W outRoot fs) := by
  induction fs with
  | nil => exact pure_follows
  | cons f fs ih =>
    rw [List.map_cons, List.flatten_cons]
    exact andThen_follows _ _ _ _ (featBody_follows W outRoot f) ih

theorem generateFrom_follows {σ : Type} (W : World σ) (spec : Spec) (mode : GoString) :
    Follows (generateCalls spec mode) (generateFrom W spec mode) := by
  unfold generateCalls
  refine andThen_follows _ _ _ _ (perform_follows W _) ?_
  refine andThen_follows _ _ _ _ (safeWriteFile_follows W _ _) ?_
  refine andThen_follows _ _ _ _ (safeWriteFile_follows W _ _) ?_
  refine andThen_follows _ _ _ _ (baseDirsLoop_follows W _ _) ?_
  refine andThen_follows _ _ _ _ (featsLoop_follows W _ _) ?_
  exact performBlank_follows W _

/-- The calls of a run whose error is assigned to the blank identifier:
service.go of each feature, in the order of the features, and then
assets/README.md. -/
theorem generateCalls_discarded (spec : Spec) (mode : GoString) :
    (generateCalls spec mode).filter (fun c => c.2) =
      spec.Feats.map (fun f => (FsOp.writeFile
        (Join [featDir (Join [str "out", mode]) f, str "service.go"]) (featService f), true)) ++
      [(.writeFile (Join [Join [str "out", mode], str "assets/README.md"]) assetsReadme, true)] := by
  have hbase : ∀ ds : List GoString,
      (ds.map fun d => (FsOp.mkdirAll (Join [Join [str "out", mode], d]), false)).filter
        (fun c => c.2) = [] := by
    intro ds
    induction ds with
    | nil => rfl
    | cons d ds ih => simp [List.filter_cons, ih]
  have hfeats : ∀ fs : List Feat,
      ((fs.map (featCalls (Join [str "out", mode]))).flatten).filter (fun c => c.2) =
        fs.map (fun f => (FsOp.writeFile
          (Join [featDir (Join [str "out", mode]) f, str "service.go"]) (featService f), true)) := by
    intro fs
    induction fs with
    | nil => rfl
    | cons f fs ih =>
      rw [List.map_cons, List.flatten_cons, List.filter_append, ih]
      simp [featCalls, List.filter_cons]
  simp only [generateCalls, List.filter_append, hbase, hfeats, safeWriteCalls]
  simp [List.filter_cons]

/-- C6 as stated fails: in a world where the write of
`out/prod/internal/feat/billing/service.go` is refused, `Generate` returns no
error, and after the failed write it goes on to write assets/README.md. -/
theorem Generate_goes_on_after_failed_service_write :
    (Generate (failWriteWorld (str "out/prod/internal/feat/billing/service.go"))
      (decodeTo billingSpec) (str "prod") freshSys).2 = none ∧
    ((Generate (failWriteWorld (str "out/prod/internal/feat/billing/service.go"))
      (decodeTo billingSpec) (str "prod") freshSys).1.log.drop 14).map
        (fun e => (e.op.path, e.err, e.discarded)) =
      [(str "out/prod/internal/feat/billing/service.go", some (str "permission denied"), true),
       (str "out/prod/assets/README.md", none, true)] := by
  refine ⟨by decide, by decide⟩

/-- C6 as amended: in a run of `Generate` that got past reading the
specification, the calls made are those of generate.go in order, up to the
point where the run stops. A failed call whose error the code looks at (a
directory creation, or the write of go.mod, main.go or a feature's
README.md) is the last call of the run and its error is what `Generate`
returns, and an error returned is always that of the last call. The errors
the code discards are those of service.go of each feature and of
assets/README.md, and only those: `Generate` returns no error exactly when
every failed call of the run is one of these writes, and then the run has
made every call, through to assets/README.md. -/
theorem Generate_aborts_on_checked_error {σ : Type} (W : World σ)
    (unmarshal : GoString → Except Err Spec) (mode : GoString) (r : Sys σ) (spec : Spec)
    (hspec : readSpec W unmarshal (str "aquamarine.yaml") r.fs = .ok spec) :
    ∃ added, (Generate W unmarshal mode r).1.log = r.log ++ added ∧
      (∀ pre ent post x, added = pre ++ ent :: post → ent.err = some x →
        (ent.discarded = false ∧ post = [] ∧ (Generate W unmarshal mode r).2 = some x) ∨
        (ent.discarded = true ∧ DiscardedWrite spec mode ent.op)) ∧
      (∀ x, (Generate W unmarshal mode r).2 = some x →
        ∃ init last, added = init ++ [last] ∧ last.err = some x ∧ last.discarded = false) ∧
      logCalls added <+: generateCalls spec mode ∧
      ((Generate W unmarshal mode r).2 = none ↔
        ∀ e ∈ added, e.err ≠ none → e.discarded = true) ∧
      ((Generate W unmarshal mode r).2 = none → logCalls added = generateCalls spec mode) ∧
      (generateCalls spec mode).filter (fun c => c.2) =
        spec.Feats.map (fun f => (FsOp.writeFile
          (Join [featDir (Join [str "out", mode]) f, str "service.go"]) (featService f),
          true)) ++
        [(.writeFile (Join [Join [str "out", mode], str "assets/README.md"]) assetsReadme,
          true)] := by
  have hG : Generate W unmarshal mode r = generateFrom W spec mode r := by
    simp only [Generate, hspec]
  rw [hG]
  obtain ⟨added, hlog, hout⟩ := generateFrom_logs W spec mode r
  obtain ⟨added2, hlog2, hpre, hall⟩ := generateFrom_follows W spec mode r
  have hsame : added2 = added := List.append_cancel_left (hlog2.symm.trans hlog)
  subst hsame
  refine ⟨added2, hlog, ?_, ?_, hpre, ?_, hall, generateCalls_discarded spec mode⟩
  · intro pre ent post x hsplit herr
    have quiet_case : Quiet (DiscardedWrite spec mode) ent →
        (ent.discarded = false ∧ post = [] ∧ (generateFrom W spec mode r).2 = some x) ∨
        (ent.discarded = true ∧ DiscardedWrite spec mode ent.op) := by
      rintro (⟨hn, -⟩ | hd)
      · rw [herr] at hn; cases hn
      · exact Or.inr hd
    rcases hout with ⟨-, hq⟩ | ⟨init, last, y, ha, hq, hle, hld, he⟩
    · exact quiet_case (hq ent (by rw [hsplit]; simp))
    · rw [hsplit] at ha
      rcases List.append_eq_append_iff.mp ha with ⟨a', hinit, hrest⟩ | ⟨c', hpre, hlast⟩
      · cases a' with
        | nil =>
          simp only [List.nil_append, List.cons.injEq] at hrest
          obtain ⟨rfl, rfl⟩ := hrest
          left
          rw [herr] at hle
          cases hle
          exact ⟨hld, rfl, he⟩
        | cons b bs =>
          simp only [List.cons_append, List.cons.injEq] at hrest
          obtain ⟨rfl, -⟩ := hrest
          exact quiet_case (hq ent (by rw [hinit]; simp))
      · cases c' with
        | nil =>
          simp only [List.nil_append, List.cons.injEq] at hlast
          obtain ⟨rfl, hp⟩ := hlast
          left
          rw [herr] at hle
          cases hle
          exact ⟨hld, hp.symm, he⟩
        | cons b bs =>
          simp only [List.cons_append, List.cons.injEq] at hlast
          have := hlast.2
          simp at this
  · intro x hx
    rcases hout with ⟨hn, -⟩ | ⟨init, last, y, ha, -, hle, hld, he⟩
    · rw [hx] at hn; cases hn
    · rw [hx] at he
      cases he
      exact ⟨init, last, ha, hle, hld⟩
  · constructor
    · intro hnone e he herr
      rcases hout with ⟨-, hq⟩ | ⟨_, _, _, _, _, _, _, habs⟩
      · rcases hq e he with ⟨hn, -⟩ | ⟨hd, -⟩
        · exact absurd hn herr
        · exact hd
      · rw [hnone] at habs; cases habs
    · intro hq
      rcases hout with ⟨hn, -⟩ | ⟨init, last, y, ha, -, hle, hld, -⟩
      · exact hn
      · have := hq last (by rw [ha]; simp) (by rw [hle]; simp)
        rw [hld] at this
        cases this

theorem Generate_aborts_on_checked_error_witness :
    readSpec (failWriteWorld (str "out/prod/internal/feat/orders/service.go"))
      (decodeTo twoFeatsSpec) (str "aquamarine.yaml") freshSys.fs = .ok twoFeatsSpec ∧
    (∃ e ∈ (Generate (failWriteWorld (str "out/prod/internal/feat/orders/service.go"))
        (decodeTo twoFeatsSpec) (str "prod") freshSys).1.log, e.err ≠ none) ∧
    (Generate (failWriteWorld (str "out/prod/internal/feat/orders/service.go"))
      (decodeTo twoFeatsSpec) (str "prod") freshSys).2 = none ∧
    logCalls (Generate (failWriteWorld (str "out/prod/internal/feat/orders/service.go"))
      (decodeTo twoFeatsSpec) (str "prod") freshSys).1.log =
      generateCalls twoFeatsSpec (str "prod") := by
  obtain ⟨added, hlog, -, -, -, hiff, hall, -⟩ := Generate_aborts_on_checked_error
    (failWriteWorld (str "out/prod/internal/feat/orders/service.go"))
    (decodeTo twoFeatsSpec) (str "prod") freshSys twoFeatsSpec rfl
  have hadded : (Generate (failWriteWorld (str "out/prod/internal/feat/orders/service.go"))
      (decodeTo twoFeatsSpec) (str "prod") freshSys).1.log = added := by
    rw [hlog]; rfl
  have hnone := hiff.mpr (by rw [← hadded]; decide)
  refine ⟨rfl, by decide, hnone, ?_⟩
  rw [hadded]
  exact hall hnone

/-! ## C7 -/

/-- C7: when the specification file is read and decoded and its
`project.module` is empty, `readSpec` returns the error
`project.module is required` and `Generate` returns that error with the
file system and the log of calls untouched; when the module is not empty,
`readSpec` returns the decoded specification. -/
theorem readSpec_module_required {σ : Type} (W : World σ)
    (unmarshal : GoString → Except Err Spec) (mode b : GoString) (s : Spec) (r : Sys σ)
    (hread : W.readFile r.fs (str "aquamarine.yaml") = .ok b)
    (hdec : unmarshal b = .ok s) :
    (s.Project.Module = [] →
      readSpec W unmarshal (str "aquamarine.yaml") r.fs = .error errModuleRequired ∧
      errModuleRequired = str "project.module is required" ∧
      Generate W unmarshal mode r = (r, some errModuleRequired)) ∧
    (s.Project.Module ≠ [] →
      readSpec W unmarshal (str "aquamarine.yaml") r.fs = .ok s) := by
  constructor
  · intro hm
    have h1 : readSpec W unmarshal (str "aquamarine.yaml") r.fs = .error errModuleRequired := by
      simp only [readSpec, hread, hdec, hm, if_true]
    exact ⟨h1, rfl, by simp only [Generate, h1]⟩
  · intro hm
    simp only [readSpec, hread, hdec, hm, if_false]

theorem readSpec_module_required_witness :
    (readSpec okWorld (decodeTo (specOf [] [featNamed (str "billing")]))
        (str "aquamarine.yaml") freshSys.fs = .error errModuleRequired ∧
      errModuleRequired = str "project.module is required" ∧
      Generate okWorld (decodeTo (specOf [] [featNamed (str "billing")])) (str "prod") freshSys =
        (freshSys, some errModuleRequired)) ∧
    readSpec okWorld (decodeTo billingSpec) (str "aquamarine.yaml") freshSys.fs =
      .ok billingSpec :=
  ⟨(readSpec_module_required okWorld (decodeTo (specOf [] [featNamed (str "billing")]))
      (str "prod") [] (specOf [] [featNamed (str "billing")]) freshSys rfl rfl).1 rfl,
   (readSpec_module_required okWorld (decodeTo billingSpec)
      (str "prod") [] billingSpec freshSys rfl rfl).2 (by decide)⟩

/-! ## C8 -/

/-- The function `capitalizeFirst` on a string whose first byte is ASCII:
that byte is upper-cased and the rest is unchanged; the empty string is
returned unchanged. -/
theorem capitalizeFirst_ascii :
    capitalizeFirst [] = [] ∧
    ∀ (b : Nat) (rest : GoString), b < 128 →
      capitalizeFirst (b :: rest) = toUpperByte b :: rest := by
  refine ⟨rfl, ?_⟩
  intro b rest hb
  simp [capitalizeFirst, stringsToUpperByte, hb]

/-- C8, evaluated on `état` (bytes C3 A9 74 61 74): `capitalizeFirst`
upper-cases the one-byte string C3, which yields the replacement character
EF BF BD, and appends the bytes from the second on, so the result is
EF BF BD A9 74 61 74 and not `État` (C3 89 74 61 74). -/
theorem capitalizeFirst_multibyte :
    capitalizeFirst [0xC3, 0xA9, 0x74, 0x61, 0x74] =
      [0xEF, 0xBF, 0xBD, 0xA9, 0x74, 0x61, 0x74] ∧
    capitalizeFirst [0xC3, 0xA9, 0x74, 0x61, 0x74] ≠ [0xC3, 0x89, 0x74, 0x61, 0x74] ∧
    (capitalizeFirst [0xC3, 0xA9, 0x74, 0x61, 0x74]).length = 7 := by
  refine ⟨by decide, by decide, by decide⟩

/-! ## C9 -/

/-- C9, evaluated on a model with the two fields `a` and `b`: the two orders
in which a `range` may visit the one map hold the same entries, yet the
records `GenerateModels` builds from them list the fields in different
orders (`A`, `B` against `B`, `A`), so what the template is executed on is
not determined by the specification and the mode; with a template that
prints the fields in order, two runs write different bytes to
`out/dev/internal/feat/shop/item.go`. -/
theorem modelData_depends_on_visit_order :
    List.Perm (twoFieldsAB.Fields.getD []) (twoFieldsBA.Fields.getD []) ∧
    (modelData (str "shop") (str "Item") twoFieldsAB).Fields.map (fun f => f.Name) =
      [str "A", str "B"] ∧
    (modelData (str "shop") (str "Item") twoFieldsBA).Fields.map (fun f => f.Name) =
      [str "B", str "A"] ∧
    modelData (str "shop") (str "Item") twoFieldsAB ≠
      modelData (str "shop") (str "Item") twoFieldsBA ∧
    (GenerateModels okWorld (listingGenerator twoFieldsAB) freshSys).1.log.map (fun e => e.op) =
      [.mkdirAll (str "out/dev/internal/feat/shop"),
       .create (str "out/dev/internal/feat/shop/item.go"),
       .write (str "out/dev/internal/feat/shop/item.go") (str "A\nB\n")] ∧
    (GenerateModels okWorld (listingGenerator twoFieldsBA) freshSys).1.log.map (fun e => e.op) =
      [.mkdirAll (str "out/dev/internal/feat/shop"),
       .create (str "out/dev/internal/feat/shop/item.go"),
       .write (str "out/dev/internal/feat/shop/item.go") (str "B\nA\n")] := by
  refine ⟨?_, by decide, by decide, by decide, by decide, by decide⟩
  exact List.Perm.swap _ _ _

/-! ## C10 -/

/-- The mode `App.Run` hands to `Generate`: `dev` when the flag is set and
`prod` otherwise. -/
theorem appRun_mode {σ : Type} (W : World σ) (unmarshal : GoString → Except Err Spec)
    (parseDev : List GoString → Except Err Bool) (prog : GoString) (rest : List GoString)
    (r : Sys σ) (dev : Bool) (h : parseDev rest = .ok dev) :
    (App.Run W unmarshal parseDev (prog :: str "generate" :: rest) r).mode =
      some (if dev then str "dev" else str "prod") := by
  simp [App.Run, h]

/-- C10, evaluated on a crafted feature name: with the one feature
`../../../prod/y` and the flag `dev` set, `App.Run` selects mode `dev` and
succeeds, and the run creates `out/prod/y` and writes `out/prod/y/README.md`
and `out/prod/y/service.go`, which do not lie under `out/dev`; the run in
mode `prod` writes these very paths. -/
theorem dev_run_writes_into_prod_tree :
    (App.Run okWorld (decodeTo crossSpec) (fun _ => .ok true)
      [str "aquamarine", str "generate", str "--dev"] freshSys).mode = some (str "dev") ∧
    (App.Run okWorld (decodeTo crossSpec) (fun _ => .ok true)
      [str "aquamarine", str "generate", str "--dev"] freshSys).err = none ∧
    logPaths (App.Run okWorld (decodeTo crossSpec) (fun _ => .ok true)
      [str "aquamarine", str "generate", str "--dev"] freshSys).sys.log =
      [str "out/dev", str "out/dev", str "out/dev/go.mod", str "out/dev",
       str "out/dev/main.go", str "out/dev/internal/platform", str "out/dev/internal/web",
       str "out/dev/internal/feat", str "out/dev/assets/templates",
       str "out/dev/assets/migrations/sqlite", str "out/dev/assets/seeds/sqlite",
       str "out/dev/assets/queries/sqlite", str "out/prod/y", str "out/prod/y/README.md",
       str "out/prod/y/service.go", str "out/dev/assets/README.md"] ∧
    logPaths (App.Run okWorld (decodeTo crossSpec) (fun _ => .ok false)
      [str "aquamarine", str "generate"] freshSys).sys.log =
      [str "out/prod", str "out/prod", str "out/prod/go.mod", str "out/prod",
       str "out/prod/main.go", str "out/prod/internal/platform", str "out/prod/internal/web",
       str "out/prod/internal/feat", str "out/prod/assets/templates",
       str "out/prod/assets/migrations/sqlite", str "out/prod/assets/seeds/sqlite",
       str "out/prod/assets/queries/sqlite", str "out/prod/y", str "out/prod/y/README.md",
       str "out/prod/y/service.go", str "out/prod/assets/README.md"] ∧
    ¬ isUnder (str "out/dev") (str "out/prod/y") ∧
    ¬ isUnder (str "out/dev") (str "out/prod/y/README.md") ∧
    ¬ isUnder (str "out/dev") (str "out/prod/y/service.go") := by
  refine ⟨by decide, by decide, by decide, by decide, by decide, by decide, by decide⟩

/-! ## Paths made of real elements -/

theorem splitSlash_noSlash (e : GoString) (h : slash ∉ e) : splitSlash e = [e] := by
  induction e with
  | nil => rfl
  | cons c rest ih =>
    have hc : c ≠ slash := fun hc => h (hc ▸ List.mem_cons_self _ _)
    have hr : slash ∉ rest := fun hr => h (List.mem_cons_of_mem _ hr)
    simp [splitSlash, hc, ih hr]

theorem splitSlash_append (e rest : GoString) (h : slash ∉ e) :
    splitSlash (e ++ slash :: rest) = e :: splitSlash rest := by
  induction e with
  | nil => simp [splitSlash]
  | cons c e ih =>
    have hc : c ≠ slash := fun hc => h (hc ▸ List.mem_cons_self _ _)
    have hr : slash ∉ e := fun hr => h (List.mem_cons_of_mem _ hr)
    simp [splitSlash, hc, ih hr]

theorem joinSlash_single (e : GoString) : joinSlash [e] = e := by
  simp [joinSlash, List.intercalate]

theorem joinSlash_cons_cons (e e' : GoString) (es : List GoString) :
    joinSlash (e :: e' :: es) = e ++ slash :: joinSlash (e' :: es) := by
  simp [joinSlash, List.intercalate]

theorem joinSlash_append (xs ys : List GoString) (hx : xs ≠ []) (hy : ys ≠ []) :
    joinSlash (xs ++ ys) = joinSlash xs ++ slash :: joinSlash ys := by
  induction xs with
  | nil => exact absurd rfl hx
  | cons x xs ih =>
    cases xs with
    | nil =>
      cases ys with
      | nil => exact absurd rfl hy
      | cons y ys => simp [joinSlash_cons_cons, joinSlash_single]
    | cons x' xs =>
      have := ih (by simp)
      simp only [List.cons_append] at this ⊢
      rw [joinSlash_cons_cons, this, joinSlash_cons_cons]
      simp

theorem splitSlash_joinSlash (es : List GoString) (hne : es ≠ [])
    (h : ∀ e ∈ es, slash ∉ e) : splitSlash (joinSlash es) = es := by
  induction es with
  | nil => exact absurd rfl hne
  | cons e es ih =>
    cases es with
    | nil => rw [joinSlash_single]; exact splitSlash_noSlash e (h e (by simp))
    | cons e' es =>
      rw [joinSlash_cons_cons, splitSlash_append _ _ (h e (by simp)),
        ih (by simp) (fun x hx => h x (List.mem_cons_of_mem _ hx))]

theorem cleanStep_plain (rooted : Bool) (kept : List GoString) (e : GoString) (h : Plain e) :
    cleanStep rooted kept e = e :: kept := by
  obtain ⟨h1, h2, h3, -⟩ := h
  simp [cleanStep, h1, h2, h3]

theorem foldl_cleanStep_plain (rooted : Bool) (es kept : List GoString)
    (h : ∀ e ∈ es, Plain e) :
    es.foldl (cleanStep rooted) kept = es.reverse ++ kept := by
  induction es generalizing kept with
  | nil => rfl
  | cons e es ih =>
    rw [List.foldl_cons, cleanStep_plain rooted kept e (h e (by simp)),
      ih _ (fun x hx => h x (List.mem_cons_of_mem _ hx))]
    simp

theorem Clean_joinSlash (es : List GoString) (hne : es ≠ []) (h : ∀ e ∈ es, Plain e) :
    Clean (joinSlash es) = joinSlash es := by
  have hsplit := splitSlash_joinSlash es hne (fun e he => (h e he).2.2.2)
  have helems : cleanElems false (joinSlash es) = es := by
    simp [cleanElems, hsplit, foldl_cleanStep_plain false es [] h]
  obtain ⟨e, rest, rfl⟩ := List.exists_cons_of_ne_nil hne
  obtain ⟨c, e', rfl⟩ := List.exists_cons_of_ne_nil (h e (by simp)).1
  have hc : c ≠ slash := fun hc => (h (c :: e') (by simp)).2.2.2 (hc ▸ List.mem_cons_self _ _)
  have hshape : ∃ t, joinSlash ((c :: e') :: rest) = c :: t := by
    cases rest with
    | nil => exact ⟨e', by rw [joinSlash_single]⟩
    | cons r rs => exact ⟨_, by rw [joinSlash_cons_cons]; rfl⟩
  obtain ⟨t, ht⟩ := hshape
  rw [ht] at helems ⊢
  simp only [Clean, hc, if_false, helems]
  exact ht

theorem joinSlash_ne_nil (es : List GoString) (hne : es ≠ []) (h : ∀ e ∈ es, Plain e) :
    joinSlash es ≠ [] := by
  obtain ⟨e, rest, rfl⟩ := List.exists_cons_of_ne_nil hne
  obtain ⟨c, e', rfl⟩ := List.exists_cons_of_ne_nil (h e (by simp)).1
  cases rest with
  | nil => rw [joinSlash_single]; simp
  | cons r rs => rw [joinSlash_cons_cons]; simp

theorem joinSlash_map_joinSlash (ps : List (List GoString)) (hne : ps ≠ [])
    (h : ∀ p ∈ ps, p ≠ []) : joinSlash (ps.map joinSlash) = joinSlash ps.flatten := by
  induction ps with
  | nil => exact absurd rfl hne
  | cons p ps ih =>
    cases ps with
    | nil => simp [joinSlash_single]
    | cons q qs =>
      have hq := ih (by simp) (fun x hx => h x (List.mem_cons_of_mem _ hx))
      have hflat : (q :: qs).flatten ≠ [] := by
        have := h q (by simp)
        simp only [List.flatten_cons]
        intro habs
        exact this (List.append_eq_nil.mp habs).1
      rw [List.map_cons, List.map_cons, joinSlash_cons_cons, ← List.map_cons, hq]
      show _ = joinSlash (p ++ (q :: qs).flatten)
      rw [joinSlash_append p _ (h p (by simp)) hflat]

/-- Joining paths that are made of real elements concatenates their
elements. -/
theorem Join_plain (ps : List (List GoString)) (hne : ps ≠ [])
    (h : ∀ p ∈ ps, p ≠ [] ∧ ∀ e ∈ p, Plain e) :
    Join (ps.map joinSlash) = joinSlash ps.flatten := by
  obtain ⟨p, rest, rfl⟩ := List.exists_cons_of_ne_nil hne
  have hp := h p (by simp)
  have hpne : joinSlash p ≠ [] := joinSlash_ne_nil p hp.1 hp.2
  have hflat_ne : (p :: rest).flatten ≠ [] := by
    simp only [List.flatten_cons]
    intro habs
    exact hp.1 (List.append_eq_nil.mp habs).1
  have hflat_plain : ∀ e ∈ (p :: rest).flatten, Plain e := by
    intro e he
    obtain ⟨q, hq, heq⟩ := List.mem_flatten.mp he
    exact (h q hq).2 e heq
  have hdrop : List.dropWhile (fun e : GoString => e.isEmpty) ((p :: rest).map joinSlash) =
      (p :: rest).map joinSlash := by
    rw [List.map_cons, List.dropWhile_cons]
    have : (joinSlash p).isEmpty = false := by
      cases hj : joinSlash p with
      | nil => exact absurd hj hpne
      | cons _ _ => rfl
    simp [this]
  unfold Join
  rw [hdrop, List.map_cons]
  simp only
  rw [← List.map_cons, joinSlash_map_joinSlash _ (by simp) (fun q hq => (h q hq).1),
    Clean_joinSlash _ hflat_ne hflat_plain]

theorem isUnder_joinSlash (root more : List GoString) (hroot : root ≠ []) :
    isUnder (joinSlash root) (joinSlash (root ++ more)) := by
  cases more with
  | nil => left; simp
  | cons m ms =>
    right
    rw [joinSlash_append root (m :: ms) hroot (by simp)]
    exact ⟨joinSlash (m :: ms), by simp⟩

theorem cleanStep_nil (rooted : Bool) (kept : List GoString) :
    cleanStep rooted kept [] = kept := by
  simp [cleanStep]

/-- The directory of a path of real elements is the path without its last
element. -/
theorem Dir_joinSlash (es : List GoString) (e : GoString) (hne : es ≠ [])
    (h : ∀ x ∈ es, Plain x) (he : slash ∉ e) :
    Dir (joinSlash (es ++ [e])) = joinSlash es := by
  have hcut : ((joinSlash (es ++ [e])).reverse.dropWhile
      (fun b => decide (b ≠ slash))).reverse = joinSlash (es ++ [[]]) := by
    rw [joinSlash_append es [e] hne (by simp), joinSlash_append es [[]] hne (by simp),
      joinSlash_single, joinSlash_single]
    have : (joinSlash es ++ slash :: e).reverse = e.reverse ++ slash :: (joinSlash es).reverse := by
      simp
    rw [this, List.dropWhile_append_of_pos (by
      intro b hb
      have : b ≠ slash := fun hbs => he (hbs ▸ List.mem_reverse.mp hb)
      simpa using this)]
    simp
  unfold Dir
  rw [hcut]
  have hsplit : splitSlash (joinSlash (es ++ [[]])) = es ++ [[]] :=
    splitSlash_joinSlash _ (by simp) (by
      intro x hx
      rcases List.mem_append.mp hx with hx | hx
      · exact (h x hx).2.2.2
      · simp only [List.mem_singleton] at hx; subst hx; simp)
  have helems : cleanElems false (joinSlash (es ++ [[]])) = es := by
    simp [cleanElems, hsplit, List.foldl_append, foldl_cleanStep_plain false es [] h,
      cleanStep_nil]
  obtain ⟨x, rest, rfl⟩ := List.exists_cons_of_ne_nil hne
  obtain ⟨c, x', rfl⟩ := List.exists_cons_of_ne_nil (h x (by simp)).1
  have hc : c ≠ slash := fun hc => (h (c :: x') (by simp)).2.2.2 (hc ▸ List.mem_cons_self _ _)
  have hshape : ∃ t, joinSlash ((c :: x') :: rest ++ [[]]) = c :: t := by
    cases rest with
    | nil => exact ⟨_, by rw [List.cons_append, List.nil_append, joinSlash_cons_cons]; rfl⟩
    | cons r rs => exact ⟨_, by rw [List.cons_append, List.cons_append, joinSlash_cons_cons]; rfl⟩
  obtain ⟨t, ht⟩ := hshape
  rw [ht] at helems ⊢
  simp only [Clean, hc, if_false, helems]

/-! ## Containment for real names -/

theorem perform_adds {σ : Type} (Q : FsOp → Prop) (W : World σ) (op : FsOp) (h : Q op) :
    Adds Q (perform W op) := by
  intro r
  refine ⟨[{ op := op, err := (W.step r.fs op).2, discarded := false }], rfl, ?_⟩
  intro e he
  simp only [List.mem_singleton] at he
  subst he
  exact h

theorem performBlank_adds {σ : Type} (Q : FsOp → Prop) (W : World σ) (op : FsOp) (h : Q op) :
    Adds Q (fun r => (performBlank W op r, none)) := by
  intro r
  refine ⟨[{ op := op, err := (W.step r.fs op).2, discarded := true }], rfl, ?_⟩
  intro e he
  simp only [List.mem_singleton] at he
  subst he
  exact h

theorem pure_adds {σ : Type} (Q : FsOp → Prop) : Adds Q (fun r : Sys σ => (r, none)) := by
  intro r
  exact ⟨[], by simp, by simp⟩

theorem andThen_adds {σ : Type} (Q : FsOp → Prop) (f k : Sys σ → Sys σ × Option Err)
    (hf : Adds Q f) (hk : Adds Q k) : Adds Q (fun r => andThen (f r) k) := by
  intro r
  obtain ⟨a1, hl1, hq1⟩ := hf r
  cases h : (f r).2 with
  | some x => exact ⟨a1, by simp only [andThen, h]; exact hl1, hq1⟩
  | none =>
    obtain ⟨a2, hl2, hq2⟩ := hk (f r).1
    refine ⟨a1 ++ a2, ?_, ?_⟩
    · simp only [andThen, h]; rw [hl2, hl1, List.append_assoc]
    · intro e he
      rcases List.mem_append.mp he with hm | hm
      · exact hq1 e hm
      · exact hq2 e hm

theorem plain_out : Plain (str "out") := ⟨by decide, by decide, by decide, by decide⟩

/-- A path joined below a root, both made of real elements, lies under the
root. -/
theorem Join_under (root : List GoString) (rels : List (List GoString)) (hroot : root ≠ [])
    (hplain : ∀ e ∈ root, Plain e) (hrels : ∀ p ∈ rels, p ≠ [] ∧ ∀ e ∈ p, Plain e) :
    Join (joinSlash root :: rels.map joinSlash) = joinSlash (root ++ rels.flatten) ∧
    isUnder (joinSlash root) (Join (joinSlash root :: rels.map joinSlash)) := by
  have h := Join_plain (root :: rels) (by simp) (by
    intro p hp
    rcases List.mem_cons.mp hp with rfl | hp
    · exact ⟨hroot, hplain⟩
    · exact hrels p hp)
  rw [List.map_cons, List.flatten_cons] at h
  exact ⟨h, h ▸ isUnder_joinSlash root _ hroot⟩

theorem baseDirs_plain :
    ∀ d ∈ baseDirs, ∃ xs : List GoString, xs ≠ [] ∧ (∀ e ∈ xs, Plain e) ∧ d = joinSlash xs := by
  intro d hd
  simp only [baseDirs, List.mem_cons, List.mem_singleton, List.not_mem_nil, or_false] at hd
  rcases hd with rfl | rfl | rfl | rfl | rfl | rfl | rfl
  · exact ⟨[str "internal", str "platform"], by simp, by decide, by decide⟩
  · exact ⟨[str "internal", str "web"], by simp, by decide, by decide⟩
  · exact ⟨[str "internal", str "feat"], by simp, by decide, by decide⟩
  · exact ⟨[str "assets", str "templates"], by simp, by decide, by decide⟩
  · exact ⟨[str "assets", str "migrations", str "sqlite"], by simp, by decide, by decide⟩
  · exact ⟨[str "assets", str "seeds", str "sqlite"], by simp, by decide, by decide⟩
  · exact ⟨[str "assets", str "queries", str "sqlite"], by simp, by decide, by decide⟩

/-- The output root for a mode that is a real path element. -/
theorem outRoot_eq (mode : GoString) (hmode : Plain mode) :
    Join [str "out", mode] = joinSlash [str "out", mode] := by
  have h := Join_plain [[str "out"], [mode]] (by simp) (by
    intro p hp
    simp only [List.mem_cons, List.mem_singleton, List.not_mem_nil, or_false] at hp
    rcases hp with rfl | rfl
    · exact ⟨by simp, by intro e he; simp only [List.mem_singleton] at he; subst he; exact plain_out⟩
    · exact ⟨by simp, by intro e he; simp only [List.mem_singleton] at he; subst he; exact hmode⟩)
  simpa [joinSlash_single] using h

theorem root_plain (mode : GoString) (hmode : Plain mode) :
    ∀ e ∈ [str "out", mode], Plain e := by
  intro e he
  simp only [List.mem_cons, List.mem_singleton, List.not_mem_nil, or_false] at he
  rcases he with rfl | rfl
  · exact plain_out
  · exact hmode

/-- Joining one relative path of real elements to a root of real elements. -/
theorem Join_root_rel (root xs : List GoString) (hroot : root ≠ [])
    (hplain : ∀ e ∈ root, Plain e) (hne : xs ≠ []) (hxs : ∀ e ∈ xs, Plain e) :
    Join [joinSlash root, joinSlash xs] = joinSlash (root ++ xs) := by
  have h := (Join_under root [xs] hroot hplain (by
    intro p hp
    simp only [List.mem_singleton] at hp
    subst hp
    exact ⟨hne, hxs⟩)).1
  simpa using h

theorem safeWriteFile_adds {σ : Type} (W : World σ) (root : List GoString) (e data : GoString)
    (hroot : root ≠ []) (hplain : ∀ x ∈ root, Plain x) (he : Plain e) :
    Adds (fun op => isUnder (joinSlash root) op.path)
      (safeWriteFile W (Join [joinSlash root, e]) data) := by
  have hpath : Join [joinSlash root, e] = joinSlash (root ++ [e]) := by
    have := Join_root_rel root [e] hroot hplain (by simp) (by
      intro x hx; simp only [List.mem_singleton] at hx; subst hx; exact he)
    simpa [joinSlash_single] using this
  rw [hpath]
  refine andThen_adds _ _ _ (perform_adds _ W _ ?_) (perform_adds _ W _ ?_)
  · show isUnder (joinSlash root) (Dir (joinSlash (root ++ [e])))
    rw [Dir_joinSlash root e hroot hplain he.2.2.2]
    exact Or.inl rfl
  · exact isUnder_joinSlash root [e] hroot

theorem baseDirsLoop_adds {σ : Type} (W : World σ) (root : List GoString) (hroot : root ≠ [])
    (hplain : ∀ x ∈ root, Plain x) (ds : List GoString)
    (hds : ∀ d ∈ ds, ∃ xs : List GoString, xs ≠ [] ∧ (∀ e ∈ xs, Plain e) ∧ d = joinSlash xs) :
    Adds (fun op => isUnder (joinSlash root) op.path) (baseDirsLoop W (joinSlash root) ds) := by
  induction ds with
  | nil => exact pure_adds _
  | cons d ds ih =>
    obtain ⟨xs, hne, hxs, rfl⟩ := hds d (by simp)
    refine andThen_adds _ _ _ (perform_adds _ W _ ?_)
      (ih fun x hx => hds x (List.mem_cons_of_mem _ hx))
    show isUnder (joinSlash root) (Join [joinSlash root, joinSlash xs])
    rw [Join_root_rel root xs hroot hplain hne hxs]
    exact isUnder_joinSlash root xs hroot

theorem featDir_eq (root : List GoString) (hroot : root ≠ []) (hplain : ∀ x ∈ root, Plain x)
    (f : Feat) (hf : Plain f.Name) :
    featDir (joinSlash root) f = joinSlash (root ++ [str "internal", str "feat", f.Name]) := by
  have h := (Join_under root [[str "internal", str "feat"], [f.Name]] hroot hplain (by
    intro p hp
    simp only [List.mem_cons, List.mem_singleton, List.not_mem_nil, or_false] at hp
    rcases hp with rfl | rfl
    · exact ⟨by simp, by decide⟩
    · exact ⟨by simp, by intro e he; simp only [List.mem_singleton] at he; subst he; exact hf⟩)).1
  have h2 : joinSlash [str "internal", str "feat"] = str "internal/feat" := by decide
  simpa [featDir, joinSlash_single, h2] using h

theorem featBody_adds {σ : Type} (W : World σ) (root : List GoString) (hroot : root ≠ [])
    (hplain : ∀ x ∈ root, Plain x) (f : Feat) (hf : Plain f.Name) :
    Adds (fun op => isUnder (joinSlash root) op.path) (featBody W (joinSlash root) f) := by
  have hdir := featDir_eq root hroot hplain f hf
  have hdplain : ∀ x ∈ root ++ [str "internal", str "feat", f.Name], Plain x := by
    intro x hx
    rcases List.mem_append.mp hx with hx | hx
    · exact hplain x hx
    · simp only [List.mem_cons, List.mem_singleton, List.not_mem_nil, or_false] at hx
      rcases hx with rfl | rfl | rfl
      · decide
      · decide
      · exact hf
  have hfile : ∀ name : GoString, Plain name →
      isUnder (joinSlash root) (Join [featDir (joinSlash root) f, name]) := by
    intro name hname
    have := Join_root_rel (root ++ [str "internal", str "feat", f.Name]) [name] (by simp)
      hdplain (by simp) (by
        intro x hx; simp only [List.mem_singleton] at hx; subst hx; exact hname)
    rw [hdir, ← joinSlash_single name, this, List.append_assoc]
    exact isUnder_joinSlash root _ hroot
  unfold featBody
  refine andThen_adds _ _ _ (perform_adds _ W _ ?_)
    (andThen_adds _ _ _ (perform_adds _ W _ ?_) (performBlank_adds _ W _ ?_))
  · show isUnder (joinSlash root) (featDir (joinSlash root) f)
    rw [hdir]
    exact isUnder_joinSlash root _ hroot
  · exact hfile _ (by decide)
  · exact hfile _ (by decide)

theorem featsLoop_adds {σ : Type} (W : World σ) (root : List GoString) (hroot : root ≠ [])
    (hplain : ∀ x ∈ root, Plain x) (fs : List Feat) (hfs : ∀ f ∈ fs, Plain f.Name) :
    Adds (fun op => isUnder (joinSlash root) op.path) (featsLoop W (joinSlash root) fs) := by
  induction fs with
  | nil => exact pure_adds _
  | cons f fs ih =>
    exact andThen_adds _ _ _ (featBody_adds W root hroot hplain f (hfs f (by simp)))
      (ih fun g hg => hfs g (List.mem_cons_of_mem _ hg))

/-- Containment for real names: when the mode and every feature name are
real path elements (not empty, neither `.` nor `..`, without separator),
every call `Generate` makes after reading the specification acts on the
output root or on a path below it. -/
theorem generateFrom_contained {σ : Type} (W : World σ) (spec : Spec) (mode : GoString)
    (hmode : Plain mode) (hnames : ∀ f ∈ spec.Feats, Plain f.Name) (r : Sys σ) :
    ∃ added, (generateFrom W spec mode r).1.log = r.log ++ added ∧
      ∀ e ∈ added, isUnder (Join [str "out", mode]) e.op.path := by
  have hroot : [str "out", mode] ≠ [] := by simp
  have hplain := root_plain mode hmode
  have key : Adds (fun op => isUnder (joinSlash [str "out", mode]) op.path)
      (generateFrom W spec mode) := by
    unfold generateFrom
    simp only [outRoot_eq mode hmode]
    refine andThen_adds _ _ _ (perform_adds _ W _ (Or.inl rfl)) ?_
    refine andThen_adds _ _ _ (safeWriteFile_adds W _ _ _ hroot hplain (by decide)) ?_
    refine andThen_adds _ _ _ (safeWriteFile_adds W _ _ _ hroot hplain (by decide)) ?_
    refine andThen_adds _ _ _ (baseDirsLoop_adds W _ hroot hplain _ baseDirs_plain) ?_
    refine andThen_adds _ _ _ (featsLoop_adds W _ hroot hplain _ hnames) ?_
    refine performBlank_adds _ W _ ?_
    have h2 : str "assets/README.md" = joinSlash [str "assets", str "README.md"] := by decide
    show isUnder _ (Join [joinSlash [str "out", mode], str "assets/README.md"])
    rw [h2, Join_root_rel _ _ hroot hplain (by simp) (by decide)]
    exact isUnder_joinSlash _ _ hroot
  rw [outRoot_eq mode hmode]
  exact key r

theorem wrapErr_adds {σ : Type} (Q : FsOp → Prop) (msg : GoString)
    (f : Sys σ → Sys σ × Option Err) (hf : Adds Q f) : Adds Q (fun r => wrapErr msg (f r)) := by
  intro r
  exact hf r

theorem toLowerByte_eq_slash {b : Nat} : toLowerByte b = slash ↔ b = slash := by
  unfold toLowerByte isUpper slash
  split
  · rename_i h
    simp only [Bool.and_eq_true, decide_eq_true_eq] at h
    omega
  · rfl

theorem modelFile_plain (modelName : GoString) (h : slash ∉ modelName) :
    Plain (stringsToLower modelName ++ str ".go") := by
  have hlen : (stringsToLower modelName ++ str ".go").length = modelName.length + 3 := by
    simp [stringsToLower, str]
  refine ⟨?_, ?_, ?_, ?_⟩
  · intro habs; rw [habs] at hlen; simp at hlen
  · intro habs; rw [habs] at hlen; simp [str] at hlen
  · intro habs; rw [habs] at hlen; simp [str] at hlen
  · intro hmem
    rcases List.mem_append.mp hmem with hm | hm
    · obtain ⟨a, ha, heq⟩ := List.mem_map.mp hm
      exact h (toLowerByte_eq_slash.mp heq ▸ ha)
    · revert hm; decide

theorem modelBody_adds {σ : Type} (W : World σ) (fg : FeatureGenerator) (root : List GoString)
    (hroot : root ≠ []) (hplain : ∀ x ∈ root, Plain x) (hout : fg.OutputDir = joinSlash root)
    (featName modelName : GoString) (model : Model) (hf : Plain featName)
    (hm : slash ∉ modelName) :
    Adds (fun op => isUnder (joinSlash root) op.path)
      (modelBody W fg featName modelName model) := by
  have hfile := modelFile_plain modelName hm
  have hpath : modelPath fg.OutputDir featName modelName =
      joinSlash (root ++ [str "internal", str "feat", featName,
        stringsToLower modelName ++ str ".go"]) := by
    have h := (Join_under root [[str "internal"], [str "feat"], [featName],
      [stringsToLower modelName ++ str ".go"]] hroot hplain (by
        intro p hp
        simp only [List.mem_cons, List.mem_singleton, List.not_mem_nil, or_false] at hp
        rcases hp with rfl | rfl | rfl | rfl
        · exact ⟨by simp, by decide⟩
        · exact ⟨by simp, by decide⟩
        · exact ⟨by simp, by intro e he; simp only [List.mem_singleton] at he; subst he; exact hf⟩
        · exact ⟨by simp, by
            intro e he; simp only [List.mem_singleton] at he; subst he; exact hfile⟩)).1
    simpa [modelPath, hout, joinSlash_single] using h
  have hdir : Dir (joinSlash (root ++ [str "internal", str "feat", featName,
        stringsToLower modelName ++ str ".go"])) =
      joinSlash (root ++ [str "internal", str "feat", featName]) := by
    have := Dir_joinSlash (root ++ [str "internal", str "feat", featName])
      (stringsToLower modelName ++ str ".go") (by simp) (by
        intro x hx
        rcases List.mem_append.mp hx with hx | hx
        · exact hplain x hx
        · simp only [List.mem_cons, List.mem_singleton, List.not_mem_nil, or_false] at hx
          rcases hx with rfl | rfl | rfl
          · decide
          · decide
          · exact hf) hfile.2.2.2
    simpa using this
  unfold modelBody
  simp only [hpath, hdir]
  refine andThen_adds _ _ _ (wrapErr_adds _ _ _ (perform_adds _ W _ ?_)) ?_
  · exact isUnder_joinSlash root _ hroot
  refine andThen_adds _ _ _ (wrapErr_adds _ _ _ (perform_adds _ W _ ?_)) ?_
  · exact isUnder_joinSlash root _ hroot
  refine andThen_adds _ _ _ (wrapErr_adds _ _ _ (perform_adds _ W _ ?_)) ?_
  · exact isUnder_joinSlash root _ hroot
  · exact wrapErr_adds _ _ _ (fun r => ⟨[], by simp, by simp⟩)

theorem modelsLoop_adds {σ : Type} (W : World σ) (fg : FeatureGenerator) (root : List GoString)
    (hroot : root ≠ []) (hplain : ∀ x ∈ root, Plain x) (hout : fg.OutputDir = joinSlash root)
    (featName : GoString) (hf : Plain featName) (models : GoMap GoString Model)
    (hm : ∀ kv ∈ models, slash ∉ kv.1) :
    Adds (fun op => isUnder (joinSlash root) op.path) (modelsLoop W fg featName models) := by
  induction models with
  | nil => exact pure_adds _
  | cons kv rest ih =>
    obtain ⟨modelName, model⟩ := kv
    exact andThen_adds _ _ _
      (modelBody_adds W fg root hroot hplain hout featName modelName model hf
        (hm (modelName, model) (by simp)))
      (ih fun x hx => hm x (List.mem_cons_of_mem _ hx))

theorem featuresLoop_adds {σ : Type} (W : World σ) (fg : FeatureGenerator)
    (root : List GoString) (hroot : root ≠ []) (hplain : ∀ x ∈ root, Plain x)
    (hout : fg.OutputDir = joinSlash root) (feats : GoMap GoString Feature)
    (hnames : ∀ kv ∈ feats, Plain kv.1 ∧ ∀ m ∈ kv.2.Models, slash ∉ m.1) :
    Adds (fun op => isUnder (joinSlash root) op.path) (featuresLoop W fg feats) := by
  induction feats with
  | nil => exact pure_adds _
  | cons kv rest ih =>
    obtain ⟨featName, feat⟩ := kv
    have h := hnames (featName, feat) (by simp)
    exact andThen_adds _ _ _
      (modelsLoop_adds W fg root hroot hplain hout featName h.1 feat.Models h.2)
      (ih fun x hx => hnames x (List.mem_cons_of_mem _ hx))

/-- Containment for real names: when the output directory is a path of real
elements, every feature name is a real path element and no model name holds
a separator, every call `GenerateModels` makes acts on a path below the
output directory. -/
theorem GenerateModels_contained {σ : Type} (W : World σ) (fg : FeatureGenerator)
    (root : List GoString) (hroot : root ≠ []) (hplain : ∀ x ∈ root, Plain x)
    (hout : fg.OutputDir = joinSlash root)
    (hnames : ∀ kv ∈ fg.Config.Feats, Plain kv.1 ∧ ∀ m ∈ kv.2.Models, slash ∉ m.1)
    (r : Sys σ) :
    ∃ added, (GenerateModels W fg r).1.log = r.log ++ added ∧
      ∀ e ∈ added, isUnder fg.OutputDir e.op.path := by
  rw [hout]
  exact featuresLoop_adds W fg root hroot hplain hout _ hnames r

/-! ## The two modes side by side, for real names -/

theorem perform_sim {σ τ : Type} (W1 : World σ) (W2 : World τ) (h1 : NeverFails W1)
    (h2 : NeverFails W2) (R : FsOp → FsOp → Prop) (op1 op2 : FsOp) (h : R op1 op2) :
    Sim R (perform W1 op1) (perform W2 op2) := by
  intro r1 r2
  exact ⟨[{ op := op1, err := (W1.step r1.fs op1).2, discarded := false }],
    [{ op := op2, err := (W2.step r2.fs op2).2, discarded := false }], rfl, rfl,
    h1 _ _, h2 _ _, List.Forall₂.cons ⟨h, rfl⟩ List.Forall₂.nil⟩

theorem performBlank_sim {σ τ : Type} (W1 : World σ) (W2 : World τ)
    (R : FsOp → FsOp → Prop) (op1 op2 : FsOp) (h : R op1 op2) :
    Sim R (fun r => (performBlank W1 op1 r, none)) (fun r => (performBlank W2 op2 r, none)) := by
  intro r1 r2
  exact ⟨[{ op := op1, err := (W1.step r1.fs op1).2, discarded := true }],
    [{ op := op2, err := (W2.step r2.fs op2).2, discarded := true }], rfl, rfl,
    rfl, rfl, List.Forall₂.cons ⟨h, rfl⟩ List.Forall₂.nil⟩

theorem pure_sim {σ τ : Type} (R : FsOp → FsOp → Prop) :
    Sim R (fun r : Sys σ => (r, none)) (fun r : Sys τ => (r, none)) := by
  intro r1 r2
  exact ⟨[], [], by simp, by simp, rfl, rfl, List.Forall₂.nil⟩

theorem andThen_sim {σ τ : Type} (R : FsOp → FsOp → Prop)
    (f k1 : Sys σ → Sys σ × Option Err) (g k2 : Sys τ → Sys τ × Option Err)
    (hf : Sim R f g) (hk : Sim R k1 k2) :
    Sim R (fun r => andThen (f r) k1) (fun r => andThen (g r) k2) := by
  intro r1 r2
  obtain ⟨a1, a2, hl1, hl2, he1, he2, hrel⟩ := hf r1 r2
  obtain ⟨b1, b2, hm1, hm2, hf1, hf2, hrel2⟩ := hk (f r1).1 (g r2).1
  refine ⟨a1 ++ b1, a2 ++ b2, ?_, ?_, ?_, ?_, List.rel_append hrel hrel2⟩
  · simp only [andThen, he1]; rw [hm1, hl1, List.append_assoc]
  · simp only [andThen, he2]; rw [hm2, hl2, List.append_assoc]
  · simp only [andThen, he1]; exact hf1
  · simp only [andThen, he2]; exact hf2

theorem Join_root_elem (root : List GoString) (e : GoString) (hroot : root ≠ [])
    (hplain : ∀ x ∈ root, Plain x) (he : Plain e) :
    Join [joinSlash root, e] = joinSlash (root ++ [e]) := by
  have := Join_root_rel root [e] hroot hplain (by simp) (by
    intro x hx; simp only [List.mem_singleton] at hx; subst hx; exact he)
  simpa [joinSlash_single] using this

theorem safeWriteFile_sim {σ τ : Type} (W1 : World σ) (W2 : World τ) (h1 : NeverFails W1)
    (h2 : NeverFails W2) (root1 root2 : List GoString) (e data : GoString)
    (hr1 : root1 ≠ []) (hp1 : ∀ x ∈ root1, Plain x)
    (hr2 : root2 ≠ []) (hp2 : ∀ x ∈ root2, Plain x) (he : Plain e) :
    Sim (Twin root1 root2) (safeWriteFile W1 (Join [joinSlash root1, e]) data)
      (safeWriteFile W2 (Join [joinSlash root2, e]) data) := by
  rw [Join_root_elem root1 e hr1 hp1 he, Join_root_elem root2 e hr2 hp2 he]
  refine andThen_sim _ _ _ _ _ (perform_sim W1 W2 h1 h2 _ _ _ ?_)
    (perform_sim W1 W2 h1 h2 _ _ _ ?_)
  · exact ⟨[], by
      show Dir (joinSlash (root1 ++ [e])) = _
      rw [Dir_joinSlash root1 e hr1 hp1 he.2.2.2, List.append_nil], by
      show Dir (joinSlash (root2 ++ [e])) = _
      rw [Dir_joinSlash root2 e hr2 hp2 he.2.2.2, List.append_nil], rfl⟩
  · exact ⟨[e], rfl, rfl, rfl⟩

theorem baseDirsLoop_sim {σ τ : Type} (W1 : World σ) (W2 : World τ) (h1 : NeverFails W1)
    (h2 : NeverFails W2) (root1 root2 : List GoString)
    (hr1 : root1 ≠ []) (hp1 : ∀ x ∈ root1, Plain x)
    (hr2 : root2 ≠ []) (hp2 : ∀ x ∈ root2, Plain x) (ds : List GoString)
    (hds : ∀ d ∈ ds, ∃ xs : List GoString, xs ≠ [] ∧ (∀ e ∈ xs, Plain e) ∧ d = joinSlash xs) :
    Sim (Twin root1 root2) (baseDirsLoop W1 (joinSlash root1) ds)
      (baseDirsLoop W2 (joinSlash root2) ds) := by
  induction ds with
  | nil => exact pure_sim _
  | cons d ds ih =>
    obtain ⟨xs, hne, hxs, rfl⟩ := hds d (by simp)
    refine andThen_sim _ _ _ _ _ (perform_sim W1 W2 h1 h2 _ _ _ ?_)
      (ih fun x hx => hds x (List.mem_cons_of_mem _ hx))
    exact ⟨xs, Join_root_rel root1 xs hr1 hp1 hne hxs, Join_root_rel root2 xs hr2 hp2 hne hxs, rfl⟩

theorem featFile_eq (root : List GoString) (hroot : root ≠ []) (hplain : ∀ x ∈ root, Plain x)
    (f : Feat) (hf : Plain f.Name) (name : GoString) (hname : Plain name) :
    Join [featDir (joinSlash root) f, name] =
      joinSlash (root ++ [str "internal", str "feat", f.Name, name]) := by
  have hdplain : ∀ x ∈ root ++ [str "internal", str "feat", f.Name], Plain x := by
    intro x hx
    rcases List.mem_append.mp hx with hx | hx
    · exact hplain x hx
    · simp only [List.mem_cons, List.mem_singleton, List.not_mem_nil, or_false] at hx
      rcases hx with rfl | rfl | rfl
      · decide
      · decide
      · exact hf
  rw [featDir_eq root hroot hplain f hf,
    Join_root_elem (root ++ [str "internal", str "feat", f.Name]) name (by simp) hdplain hname,
    List.append_assoc]
  rfl

theorem featBody_sim {σ τ : Type} (W1 : World σ) (W2 : World τ) (h1 : NeverFails W1)
    (h2 : NeverFails W2) (root1 root2 : List GoString)
    (hr1 : root1 ≠ []) (hp1 : ∀ x ∈ root1, Plain x)
    (hr2 : root2 ≠ []) (hp2 : ∀ x ∈ root2, Plain x) (f : Feat) (hf : Plain f.Name) :
    Sim (Twin root1 root2) (featBody W1 (joinSlash root1) f)
      (featBody W2 (joinSlash root2) f) := by
  unfold featBody
  refine andThen_sim _ _ _ _ _ (perform_sim W1 W2 h1 h2 _ _ _ ?_)
    (andThen_sim _ _ _ _ _ (perform_sim W1 W2 h1 h2 _ _ _ ?_)
      (performBlank_sim W1 W2 _ _ _ ?_))
  · exact ⟨_, featDir_eq root1 hr1 hp1 f hf, featDir_eq root2 hr2 hp2 f hf, rfl⟩
  · exact ⟨_, featFile_eq root1 hr1 hp1 f hf _ (by decide),
      featFile_eq root2 hr2 hp2 f hf _ (by decide), rfl⟩
  · exact ⟨_, featFile_eq root1 hr1 hp1 f hf _ (by decide),
      featFile_eq root2 hr2 hp2 f hf _ (by decide), rfl⟩

theorem featsLoop_sim {σ τ : Type} (W1 : World σ) (W2 : World τ) (h1 : NeverFails W1)
    (h2 : NeverFails W2) (root1 root2 : List GoString)
    (hr1 : root1 ≠ []) (hp1 : ∀ x ∈ root1, Plain x)
    (hr2 : root2 ≠ []) (hp2 : ∀ x ∈ root2, Plain x) (fs : List Feat)
    (hfs : ∀ f ∈ fs, Plain f.Name) :
    Sim (Twin root1 root2) (featsLoop W1 (joinSlash root1) fs)
      (featsLoop W2 (joinSlash root2) fs) := by
  induction fs with
  | nil => exact pure_sim _
  | cons f fs ih =>
    exact andThen_sim _ _ _ _ _
      (featBody_sim W1 W2 h1 h2 root1 root2 hr1 hp1 hr2 hp2 f (hfs f (by simp)))
      (ih fun g hg => hfs g (List.mem_cons_of_mem _ hg))

/-- The modes side by side, for real names: when every feature name is a
real path element and no call fails, the run in mode `dev` and the run in
mode `prod` both succeed and make the same calls in the same order, each
pair on the same relative path, below `out/dev` for the one and below
`out/prod` for the other, with the same contents. -/
theorem generateFrom_dev_prod {σ τ : Type} (W1 : World σ) (W2 : World τ)
    (h1 : NeverFails W1) (h2 : NeverFails W2) (spec : Spec)
    (hnames : ∀ f ∈ spec.Feats, Plain f.Name) (r1 : Sys σ) (r2 : Sys τ) :
    ∃ a1 a2, (generateFrom W1 spec (str "dev") r1).1.log = r1.log ++ a1 ∧
      (generateFrom W2 spec (str "prod") r2).1.log = r2.log ++ a2 ∧
      (generateFrom W1 spec (str "dev") r1).2 = none ∧
      (generateFrom W2 spec (str "prod") r2).2 = none ∧
      List.Forall₂ (fun e1 e2 =>
        Twin [str "out", str "dev"] [str "out", str "prod"] e1.op e2.op ∧
        e1.discarded = e2.discarded) a1 a2 := by
  have hd : Plain (str "dev") := by decide
  have hp : Plain (str "prod") := by decide
  have hr1 : [str "out", str "dev"] ≠ [] := by simp
  have hr2 : [str "out", str "prod"] ≠ [] := by simp
  have hp1 := root_plain _ hd
  have hp2 := root_plain _ hp
  have key : Sim (Twin [str "out", str "dev"] [str "out", str "prod"])
      (generateFrom W1 spec (str "dev")) (generateFrom W2 spec (str "prod")) := by
    unfold generateFrom
    simp only [outRoot_eq _ hd, outRoot_eq _ hp]
    refine andThen_sim _ _ _ _ _ (perform_sim W1 W2 h1 h2 _ _ _ ⟨[], rfl, rfl, rfl⟩) ?_
    refine andThen_sim _ _ _ _ _
      (safeWriteFile_sim W1 W2 h1 h2 _ _ _ _ hr1 hp1 hr2 hp2 (by decide)) ?_
    refine andThen_sim _ _ _ _ _
      (safeWriteFile_sim W1 W2 h1 h2 _ _ _ _ hr1 hp1 hr2 hp2 (by decide)) ?_
    refine andThen_sim _ _ _ _ _
      (baseDirsLoop_sim W1 W2 h1 h2 _ _ hr1 hp1 hr2 hp2 _ baseDirs_plain) ?_
    refine andThen_sim _ _ _ _ _
      (featsLoop_sim W1 W2 h1 h2 _ _ hr1 hp1 hr2 hp2 _ hnames) ?_
    refine performBlank_sim W1 W2 _ _ _ ?_
    have h2 : str "assets/README.md" = joinSlash [str "assets", str "README.md"] := by decide
    refine ⟨[str "assets", str "README.md"], ?_, ?_, rfl⟩
    · show Join [joinSlash [str "out", str "dev"], str "assets/README.md"] = _
      rw [h2, Join_root_rel _ _ hr1 hp1 (by simp) (by decide)]
    · show Join [joinSlash [str "out", str "prod"], str "assets/README.md"] = _
      rw [h2, Join_root_rel _ _ hr2 hp2 (by simp) (by decide)]
  exact key r1 r2

/-! ## C11 -/

theorem isUpper_toLowerByte (b : Nat) : isUpper (toLowerByte b) = false := by
  unfold toLowerByte
  split
  · rename_i h
    simp only [isUpper, Bool.and_eq_true, decide_eq_true_eq] at h
    simp only [isUpper, Bool.and_eq_false_iff, decide_eq_false_iff_not]
    omega
  · rename_i h
    simpa using h

theorem toLowerByte_lt {b : Nat} (h : b < 128) : toLowerByte b < 128 := by
  unfold toLowerByte
  split
  · rename_i hu
    simp only [isUpper, Bool.and_eq_true, decide_eq_true_eq] at hu
    omega
  · exact h

theorem toLowerByte_of_not_upper {b : Nat} (h : isUpper b = false) : toLowerByte b = b := by
  simp [toLowerByte, h]

theorem stringsToLower_of_no_upper (t : GoString) (h : ∀ b ∈ t, isUpper b = false) :
    stringsToLower t = t := by
  induction t with
  | nil => rfl
  | cons c rest ih =>
    have hc := h c (List.mem_cons_self _ _)
    have hr := ih fun b hb => h b (List.mem_cons_of_mem _ hb)
    unfold stringsToLower at hr ⊢
    rw [List.map_cons, toLowerByte_of_not_upper hc, hr]

/-- The first pass only fires before a capital. -/
theorem matchFirstCap_of_no_upper (s : GoString) (h : ∀ b ∈ s, isUpper b = false) :
    matchFirstCap s = none := by
  cases hm : matchFirstCap s with
  | none => rfl
  | some t =>
    obtain ⟨g1, g2, tail⟩ := t
    obtain ⟨c, u, l, rest, hs, -, -, -, hu, -⟩ := matchFirstCap_some hm
    subst hs
    have := h u (by simp)
    rw [hu] at this
    cases this

/-- The second pass only fires before a capital. -/
theorem matchAllCap_of_no_upper (s : GoString) (h : ∀ b ∈ s, isUpper b = false) :
    matchAllCap s = none := by
  cases hm : matchAllCap s with
  | none => rfl
  | some t =>
    obtain ⟨g1, g2, tail⟩ := t
    obtain ⟨x, y, hs, -, -, -, hy⟩ := matchAllCap_some hm
    subst hs
    have := h y (by simp)
    rw [hy] at this
    cases this

/-- A scan in which the pattern never matches copies its input. -/
theorem replaceAll_of_no_match (re : MatchAt)
    (hre : ∀ t : GoString, (∀ b ∈ t, isUpper b = false) → re t = none) :
    ∀ (n : Nat) (s : GoString), (∀ b ∈ s, isUpper b = false) → replaceAll re n s = s := by
  intro n
  induction n with
  | zero => intro s _; rfl
  | succ n ih =>
    intro s hs
    match s with
    | [] => rfl
    | c :: rest =>
      simp only [replaceAll, hre (c :: rest) hs]
      rw [ih rest fun b hb => hs b (List.mem_cons_of_mem _ hb)]

theorem matchFirstCap_splits {s g1 g2 tail : GoString}
    (h : matchFirstCap s = some (g1, g2, tail)) : s = g1 ++ g2 ++ tail := by
  obtain ⟨c, u, l, rest, hs, hg1, hg2, ht, -⟩ := matchFirstCap_some h
  subst hs hg1 hg2 ht
  simp

theorem matchAllCap_splits {s g1 g2 tail : GoString}
    (h : matchAllCap s = some (g1, g2, tail)) : s = g1 ++ g2 ++ tail := by
  obtain ⟨x, y, hs, hg1, hg2, -⟩ := matchAllCap_some h
  subst hs hg1 hg2
  simp

/-- A scan only copies bytes of its input and inserts separators. -/
theorem replaceAll_mem (re : MatchAt)
    (hre : ∀ s g1 g2 tail, re s = some (g1, g2, tail) → s = g1 ++ g2 ++ tail) :
    ∀ (n : Nat) (s : GoString) (b : Nat), b ∈ replaceAll re n s → b ∈ s ∨ b = underscore := by
  intro n
  induction n with
  | zero => intro s b hb; exact Or.inl hb
  | succ n ih =>
    intro s b hb
    match s with
    | [] => exact Or.inl hb
    | c :: rest =>
      simp only [replaceAll] at hb
      cases hm : re (c :: rest) with
      | none =>
        rw [hm] at hb
        rcases List.mem_cons.mp hb with rfl | hb
        · exact Or.inl (List.mem_cons_self _ _)
        · rcases ih rest b hb with h | h
          · exact Or.inl (List.mem_cons_of_mem _ h)
          · exact Or.inr h
      | some t =>
        obtain ⟨g1, g2, tail⟩ := t
        rw [hm] at hb
        have hsplit := hre _ _ _ _ hm
        have hb2 : b ∈ g1 ++ underscore :: g2 ++ replaceAll re n tail := hb
        simp only [List.mem_append, List.mem_cons] at hb2
        rw [hsplit]
        rcases hb2 with (hb | hb | hb) | hb
        · exact Or.inl (by simp [hb])
        · exact Or.inr hb
        · exact Or.inl (by simp [hb])
        · rcases ih tail b hb with h | h
          · exact Or.inl (by simp [h])
          · exact Or.inr h

/-- C12: for every ASCII string `s`, `toSnakeCase (toSnakeCase s)` is
`toSnakeCase s`: the result holds no capital, both passes only fire before a
capital, and lower-casing leaves a string without capitals as it is. The
result is ASCII again, so the second call is on an ASCII string too. -/
theorem toSnakeCase_idempotent (s : GoString) (h : ∀ b ∈ s, b < 128) :
    toSnakeCase (toSnakeCase s) = toSnakeCase s ∧
    (∀ b ∈ toSnakeCase s, isUpper b = false) ∧
    (∀ b ∈ toSnakeCase s, b < 128) ∧
    ReplaceAllString matchFirstCap (toSnakeCase s) = toSnakeCase s ∧
    ReplaceAllString matchAllCap (toSnakeCase s) = toSnakeCase s := by
  have hno : ∀ b ∈ toSnakeCase s, isUpper b = false := by
    intro b hb
    change b ∈ List.map toLowerByte _ at hb
    obtain ⟨a, -, rfl⟩ := List.mem_map.mp hb
    exact isUpper_toLowerByte a
  have hascii : ∀ b ∈ toSnakeCase s, b < 128 := by
    intro b hb
    change b ∈ List.map toLowerByte _ at hb
    obtain ⟨a, ha, rfl⟩ := List.mem_map.mp hb
    apply toLowerByte_lt
    rcases replaceAll_mem matchAllCap (fun _ _ _ _ hm => matchAllCap_splits hm) _ _ a ha
      with h1 | h1
    · rcases replaceAll_mem matchFirstCap (fun _ _ _ _ hm => matchFirstCap_splits hm) _ _ a h1
        with h2 | h2
      · exact h a h2
      · rw [h2]; decide
    · rw [h1]; decide
  have h1 : ReplaceAllString matchFirstCap (toSnakeCase s) = toSnakeCase s :=
    replaceAll_of_no_match matchFirstCap matchFirstCap_of_no_upper _ _ hno
  have h2 : ReplaceAllString matchAllCap (toSnakeCase s) = toSnakeCase s :=
    replaceAll_of_no_match matchAllCap matchAllCap_of_no_upper _ _ hno
  refine ⟨?_, hno, hascii, h1, h2⟩
  show stringsToLower (ReplaceAllString matchAllCap
    (ReplaceAllString matchFirstCap (toSnakeCase s))) = toSnakeCase s
  rw [h1, h2, stringsToLower_of_no_upper _ hno]

theorem toSnakeCase_idempotent_witness :
    (∀ b ∈ str "HTTPServer_v2 orderItemSKU", b < 128) ∧
    toSnakeCase (str "HTTPServer_v2 orderItemSKU") = str "http_server_v2 order_item_sku" ∧
    toSnakeCase (toSnakeCase (str "HTTPServer_v2 orderItemSKU")) =
      toSnakeCase (str "HTTPServer_v2 orderItemSKU") ∧
    (∀ b ∈ toSnakeCase (str "HTTPServer_v2 orderItemSKU"), isUpper b = false) ∧
    (∀ b ∈ toSnakeCase (str "HTTPServer_v2 orderItemSKU"), b < 128) ∧
    ReplaceAllString matchFirstCap (toSnakeCase (str "HTTPServer_v2 orderItemSKU")) =
      toSnakeCase (str "HTTPServer_v2 orderItemSKU") ∧
    ReplaceAllString matchAllCap (toSnakeCase (str "HTTPServer_v2 orderItemSKU")) =
      toSnakeCase (str "HTTPServer_v2 orderItemSKU") :=
  ⟨by decide, by decide, toSnakeCase_idempotent (str "HTTPServer_v2 orderItemSKU") (by decide)⟩

end Aquamarine
